import Mathlib

/-!
# libsql-migrate: the migration engine

A shallow embedding of `main.go`: `checkMigrationTable`, `up` and `down`, with the
database behind `*sql.DB`, the migrations directory and standard output made explicit.

* Go strings are modelled by `String`; Go compares strings bytewise, which for UTF-8 text is
  the lexicographic order of the code points, i.e. the order of `String.data`.
* `log.Fatal`/`log.Fatalf` end the process: a run returns `some fatal` together with the
  world it leaves behind.
* The five embedded SQL files are not part of the sources; what the statements do to the
  migrations table is modelled from the specification (section 4.1 and section 6).
* A migration script is opaque: the executor either accepts or rejects it, and its effect on
  the schema is recorded only as the call in the trace. Scripts do not touch the migrations
  table.
-/

namespace LibsqlMigrate

/-! ## Go string helpers -/

/-- Go `strings.HasSuffix(s, suffix)`:
`len(s) >= len(suffix) && s[len(s)-len(suffix):] == suffix`. -/
def hasSuffix (s suffix : String) : Bool :=
  decide (suffix.data.length ≤ s.data.length) &&
    decide (s.data.drop (s.data.length - suffix.data.length) = suffix.data)

/-- Go `strings.TrimSuffix(s, suffix)`: `s` without the trailing `suffix`, or `s` itself
when it does not end in `suffix`. -/
def trimSuffix (s suffix : String) : String :=
  if hasSuffix s suffix then String.mk (s.data.take (s.data.length - suffix.data.length))
  else s

/-- The comparator of `sort.Slice` in `up`: `files[i].Name() < files[j].Name()` must not
hold for a later `i` and an earlier `j`, i.e. the result is ascending. -/
def sortAsc (files : List String) : List String :=
  files.insertionSort (fun a b => a.data ≤ b.data)

/-- The comparator of `sort.Slice` in `down`: `files[i].Name() > files[j].Name()`, i.e. the
result is descending. -/
def sortDesc (files : List String) : List String :=
  files.insertionSort (fun a b => b.data ≤ a.data)

/-! ## The store -/

/-- One row of the migrations table. -/
structure Entry where
  id : Int
  name : String
deriving DecidableEq, Repr

/-- A call made on the database handle (or on the result it returned). -/
inductive Call where
  /-- The call `db.Exec(checkMigrationsTableSQL, migrationsTableName)`. -/
  | probe
  /-- The call `rows.RowsAffected()` on the result of the probe. -/
  | rowsAffected
  /-- The call `db.Exec(prepareSQL(createMigrationsTableSQL))`. -/
  | createTable
  /-- The call `db.QueryRow(prepareSQL(checkMigrationSQL), baseName).Scan(&id)`. -/
  | query (baseName : String)
  /-- The call `db.Exec(string(content))`. -/
  | exec (content : String)
  /-- The call `db.Exec(prepareSQL(recordMigrationSQL), baseName)`. -/
  | record (baseName : String)
  /-- The call `db.Exec(prepareSQL(deleteMigrationSQL), id)`. -/
  | delete (id : Int)
deriving DecidableEq, Repr

/-- The world a run acts on: the migrations table (`none` when the table does not exist),
the last surrogate id the store handed out, the trace of calls made so far and the lines
printed on standard output. -/
structure World where
  ledger : Option (List Entry)
  lastId : Nat
  log : List Call
  out : List String
deriving DecidableEq, Repr

/-- What a run is given: the result of `sql.Open`, of `os.ReadDir(migrationsPath)` (the
entry names, `none` on error), of `os.ReadFile` per entry name, whether the migrations
table declares its name column unique, and which calls the store rejects; the last may
depend on everything that happened before. -/
structure Env where
  openOk : Bool
  readDir : Option (List String)
  readFile : String → Option String
  uniqueNames : Bool
  fault : World → Call → Bool

/-- The rows of the migrations table; no rows when the table does not exist. -/
def World.rows (w : World) : List Entry := w.ledger.getD []

/-- The migration identifiers recorded in the migrations table. -/
def World.names (w : World) : List String := w.rows.map Entry.name

/-- Append a call to the trace. -/
def World.logCall (w : World) (c : Call) : World := { w with log := w.log ++ [c] }

/-- Append a line to standard output (`fmt.Printf`, `fmt.Println`). -/
def World.print (w : World) (line : String) : World := { w with out := w.out ++ [line] }

/-- Modelled from the spec: `sql/check_migrations_table.sql` is missing; the probe is an
execute-and-inspect-affected-rows statement for which zero affected rows signals that the
table is absent. Returns the affected-row count of the result, `none` on error. -/
def execProbe (env : Env) (w : World) : Option Nat × World :=
  if env.fault w .probe then (none, w.logCall .probe)
  else (some (if w.ledger.isSome then 1 else 0), w.logCall .probe)

/-- The call `rows.RowsAffected()`: the count, or `none` when the driver reports an error. -/
def rowsAffected (env : Env) (w : World) (count : Nat) : Option Nat × World :=
  if env.fault w .rowsAffected then (none, w.logCall .rowsAffected)
  else (some count, w.logCall .rowsAffected)

/-- Modelled from the spec: `sql/create_migrations_table.sql` is missing; the statement
creates the (empty) migrations table. Returns `true` on success. -/
def execCreate (env : Env) (w : World) : Bool × World :=
  if env.fault w .createTable then (false, w.logCall .createTable)
  else (true, { w.logCall .createTable with ledger := some w.rows })

/-- The three results of `QueryRow(...).Scan(&id)` the code tells apart. -/
inductive ScanResult where
  /-- The case `err == nil`, with the scanned `id`. -/
  | ok (id : Int)
  /-- The case `err == sql.ErrNoRows`. -/
  | errNoRows
  /-- Any other error. -/
  | errOther
deriving DecidableEq, Repr

/-- Whether a stored integer converts to the Go `int32` that `Scan(&id)` writes to. -/
def fitsInt32 (i : Int) : Bool := decide (-2147483648 ≤ i) && decide (i ≤ 2147483647)

/-- Modelled from the spec: `sql/check_migration.sql` is missing; `findEntry(identifier)`
returns the surrogate id of the entry with this identifier, else "not found". The row is
scanned into `var id int32`, which fails for an id outside the `int32` range. -/
def queryScan (env : Env) (w : World) (baseName : String) : ScanResult × World :=
  if env.fault w (.query baseName) then (.errOther, w.logCall (.query baseName))
  else
    match w.ledger with
    | none => (.errOther, w.logCall (.query baseName))
    | some rows =>
      match rows.find? (fun e => e.name == baseName) with
      | none => (.errNoRows, w.logCall (.query baseName))
      | some e =>
        if fitsInt32 e.id then (.ok e.id, w.logCall (.query baseName))
        else (.errOther, w.logCall (.query baseName))

/-- The call `db.Exec(string(content))` for a migration script. Returns `true` on success. -/
def execScript (env : Env) (w : World) (content : String) : Bool × World :=
  (!env.fault w (.exec content), w.logCall (.exec content))

/-- Modelled from the spec: `sql/record_migration.sql` is missing; `insertEntry(identifier)`
records a new entry whose surrogate id is assigned by the store, strictly increasing with
insertion order, and fails when the name column is unique and an entry with this
identifier exists. Returns `true` on success. -/
def execRecord (env : Env) (w : World) (baseName : String) : Bool × World :=
  if env.fault w (.record baseName) then (false, w.logCall (.record baseName))
  else
    match w.ledger with
    | none => (false, w.logCall (.record baseName))
    | some rows =>
      if env.uniqueNames && rows.any (fun e => e.name == baseName) then
        (false, w.logCall (.record baseName))
      else
        (true, { w.logCall (.record baseName) with
                  ledger := some (rows ++ [⟨(w.lastId : Int) + 1, baseName⟩])
                  lastId := w.lastId + 1 })

/-- Modelled from the spec: `sql/delete_migration.sql` is missing; `deleteEntry(surrogateID)`
removes the ledger row with this surrogate id. Returns `true` on success. -/
def execDelete (env : Env) (w : World) (id : Int) : Bool × World :=
  if env.fault w (.delete id) then (false, w.logCall (.delete id))
  else
    match w.ledger with
    | none => (false, w.logCall (.delete id))
    | some rows =>
      (true, { w.logCall (.delete id) with ledger := some (rows.filter (fun e => e.id != id)) })

/-! ## The engine -/

/-- The three errors `checkMigrationTable` returns. -/
inductive CheckErr where
  /-- The error "Failed to check migration table". -/
  | probeFailed
  /-- The error "Failed to get rows affected count when checking migration table". -/
  | rowsAffectedFailed
  /-- The error "Failed to create migration table". -/
  | createFailed
deriving DecidableEq, Repr

/-- Which call made `up`/`down` report "Failed to apply migration from file". -/
inductive Cause where
  /-- The call `os.ReadFile` failed. -/
  | readFile
  /-- The call `db.Exec(string(content))` failed. -/
  | exec
deriving DecidableEq, Repr

/-- The `log.Fatal` exits of `connect`, `up` and `down`. -/
inductive Fatal where
  /-- The exit "Error opening a connection to database". -/
  | connect
  /-- The exit `log.Fatal(err)` on the error of `checkMigrationTable`. -/
  | checkTable (e : CheckErr)
  /-- The exit `log.Fatal(err)` on the error of `os.ReadDir`. -/
  | readDir
  /-- The exit "Failed to query migrations table". -/
  | queryFailed
  /-- The exit "Failed to apply migration from file %s". -/
  | applyFailed (file : String) (cause : Cause)
  /-- The exit "Failed to insert migration record into migrations table". -/
  | recordFailed
  /-- The exit "Failed to remove migration record from migrations table". -/
  | removeFailed
deriving DecidableEq, Repr

/-- The text `log.Fatalf` prints for a fatal exit, up to the wrapped error. -/
def Fatal.message : Fatal → String
  | .connect => "Error opening a connection to database: "
  | .checkTable .probeFailed => "Failed to check migration table: "
  | .checkTable .rowsAffectedFailed =>
      "Failed to get rows affected count when checking migration table: "
  | .checkTable .createFailed => "Failed to create migration table: "
  | .readDir => ""
  | .queryFailed => "Failed to query migrations table: "
  | .applyFailed file _ => "Failed to apply migration from file " ++ file ++ ": "
  | .recordFailed => "Failed to insert migration record into migrations table: "
  | .removeFailed => "Failed to remove migration record from migrations table: "

/-- The function `checkMigrationTable`. -/
def checkMigrationTable (env : Env) (w : World) : Option CheckErr × World :=
  match execProbe env w with
  | (none, w1) => (some .probeFailed, w1)
  | (some rows, w1) =>
    match rowsAffected env w1 rows with
    | (none, w2) => (some .rowsAffectedFailed, w2)
    | (some count, w2) =>
      if count = 0 then
        match execCreate env w2 with
        | (false, w3) => (some .createFailed, w3)
        | (true, w3) => (none, w3)
      else (none, w2)

/-- The suffix of forward scripts. -/
def upSuffix : String := "_up.sql"

/-- The suffix of reverse scripts. -/
def downSuffix : String := "_down.sql"

/-- The body of the `for` loop of `up` for one directory entry. -/
def upFile (env : Env) (file : String) (w : World) : Option Fatal × World :=
  if hasSuffix file upSuffix then
    match queryScan env w (trimSuffix file upSuffix) with
    | (.errOther, w1) => (some .queryFailed, w1)
    | (.ok _, w1) => (none, w1)
    | (.errNoRows, w1) =>
      match env.readFile file with
      | none => (some (.applyFailed file .readFile), w1.print ("Applying migration: " ++ file))
      | some content =>
        match execScript env (w1.print ("Applying migration: " ++ file)) content with
        | (false, w2) => (some (.applyFailed file .exec), w2)
        | (true, w2) =>
          match execRecord env w2 (trimSuffix file upSuffix) with
          | (false, w3) => (some .recordFailed, w3)
          | (true, w3) => (none, w3)
  else (none, w)

/-- The `for` loop of `up` over the sorted directory entries. -/
def upLoop (env : Env) : List String → World → Option Fatal × World
  | [], w => (none, w)
  | file :: rest, w =>
    match upFile env file w with
    | (some e, w1) => (some e, w1)
    | (none, w1) => upLoop env rest w1

/-- The command `up`. -/
def up (env : Env) (w : World) : Option Fatal × World :=
  if env.openOk then
    match checkMigrationTable env w with
    | (some e, w1) => (some (.checkTable e), w1)
    | (none, w1) =>
      match env.readDir with
      | none => (some .readDir, w1)
      | some files =>
        match upLoop env (sortAsc files) w1 with
        | (some e, w2) => (some e, w2)
        | (none, w2) => (none, w2.print "Finished applying migrations ✅")
  else (some .connect, w)

/-- The body of the `for` loop of `down` for one directory entry. -/
def downFile (env : Env) (file : String) (w : World) : Option Fatal × World :=
  if hasSuffix file downSuffix then
    match queryScan env w (trimSuffix file downSuffix) with
    | (.errOther, w1) => (some .queryFailed, w1)
    | (.errNoRows, w1) => (none, w1)
    | (.ok id, w1) =>
      if 0 < id then
        match env.readFile file with
        | none =>
          (some (.applyFailed file .readFile), w1.print ("Resetting migration: " ++ file))
        | some content =>
          match execScript env (w1.print ("Resetting migration: " ++ file)) content with
          | (false, w2) => (some (.applyFailed file .exec), w2)
          | (true, w2) =>
            match execDelete env w2 id with
            | (false, w3) => (some .removeFailed, w3)
            | (true, w3) => (none, w3)
      else (none, w1)
  else (none, w)

/-- The `for` loop of `down` over the sorted directory entries. -/
def downLoop (env : Env) : List String → World → Option Fatal × World
  | [], w => (none, w)
  | file :: rest, w =>
    match downFile env file w with
    | (some e, w1) => (some e, w1)
    | (none, w1) => downLoop env rest w1

/-- The command `down`. -/
def down (env : Env) (w : World) : Option Fatal × World :=
  if env.openOk then
    match checkMigrationTable env w with
    | (some e, w1) => (some (.checkTable e), w1)
    | (none, w1) =>
      match env.readDir with
      | none => (some .readDir, w1)
      | some files =>
        match downLoop env (sortDesc files) w1 with
        | (some e, w2) => (some e, w2)
        | (none, w2) => (none, w2.print "Finished rolling back migrations ✅")
  else (some .connect, w)

/-! ## Test fixtures -/

/-- An environment in which nothing fails: every listed file is readable (its content is
its own name) and the store accepts every call. -/
def okEnv (files : List String) : Env :=
  { openOk := true, readDir := some files, readFile := fun f => some f,
    uniqueNames := true, fault := fun _ _ => false }

/-- A store without a migrations table. -/
def freshWorld : World := { ledger := none, lastId := 0, log := [], out := [] }

/-- The environment `okEnv files`, except that the store rejects the call `bad`. -/
def rejectEnv (files : List String) (bad : Call) : Env :=
  { openOk := true, readDir := some files, readFile := fun f => some f,
    uniqueNames := true, fault := fun _ c => decide (c = bad) }

/-- The environment `okEnv files`, except that the file `bad` cannot be read. -/
def unreadableEnv (files : List String) (bad : String) : Env :=
  { openOk := true, readDir := some files,
    readFile := fun f => if f = bad then none else some f,
    uniqueNames := true, fault := fun _ _ => false }

/-- Three forward scripts, listed out of order. -/
def abcFiles : List String := ["c_up.sql", "a_up.sql", "b_up.sql"]

/-- A store in which the units `a` and `b` are recorded as applied. -/
def sampleWorld : World :=
  { ledger := some [⟨1, "a"⟩, ⟨2, "b"⟩], lastId := 2, log := [], out := [] }

/-- Three reverse scripts, listed out of order. -/
def abcDownFiles : List String := ["a_down.sql", "c_down.sql", "b_down.sql"]

/-- The directory of the concrete scenario: two units, each with both scripts. -/
def scenarioFiles : List String :=
  ["20240101000000_init_up.sql", "20240101000000_init_down.sql",
    "20240102000000_add_col_up.sql", "20240102000000_add_col_down.sql"]

/-! ## Units and the calls made for them -/

/-- The migration identifiers `up` derives from directory entries, in the order of the
entries: the names ending in `_up.sql`, without that suffix. -/
def upUnits (files : List String) : List String :=
  (files.filter (fun f => hasSuffix f upSuffix)).map (fun f => trimSuffix f upSuffix)

/-- The migration identifiers `down` derives from directory entries, in the order of the
entries: the names ending in `_down.sql`, without that suffix. -/
def downUnits (files : List String) : List String :=
  (files.filter (fun f => hasSuffix f downSuffix)).map (fun f => trimSuffix f downSuffix)

/-- The identifiers whose ledger entry is queried in a trace, in the order of the queries:
the order in which a run processes its units. -/
def queried : List Call → List String
  | [] => []
  | .query n :: rest => n :: queried rest
  | _ :: rest => queried rest

/-- Whether a call belongs to the processing of the directory entry `file` by `up`: the
ledger query or insert for its identifier, or the execution of its content. -/
def upCallOf (env : Env) (file : String) (c : Call) : Prop :=
  hasSuffix file upSuffix = true ∧
    (c = .query (trimSuffix file upSuffix) ∨ c = .record (trimSuffix file upSuffix) ∨
      ∃ content, env.readFile file = some content ∧ c = .exec content)

/-- Whether a call belongs to the processing of the directory entry `file` by `down`, for
a ledger with the given rows: the ledger query for its identifier, the execution of its
content, or the delete of a row of its identifier. -/
def downCallOf (env : Env) (rows : List Entry) (file : String) (c : Call) : Prop :=
  hasSuffix file downSuffix = true ∧
    (c = .query (trimSuffix file downSuffix) ∨
      (∃ id, c = .delete id ∧ (⟨id, trimSuffix file downSuffix⟩ : Entry) ∈ rows) ∨
      ∃ content, env.readFile file = some content ∧ c = .exec content)

/-- A call of the table check: the probe, reading its count, or creating the table. -/
def Call.isTableCall : Call → Bool
  | .probe => true
  | .rowsAffected => true
  | .createTable => true
  | _ => false

/-! ## The paths through the loop bodies -/

/-- The seven ways through the loop body of `up`, each with the result it produces. -/
inductive UpStep (env : Env) (file : String) (w : World) : Option Fatal × World → Prop
  /-- the entry name does not end in `_up.sql` -/
  | other (hs : hasSuffix file upSuffix = false) : UpStep env file w (none, w)
  /-- the ledger query fails -/
  | queryErr (hs : hasSuffix file upSuffix = true)
      (hq : (queryScan env w (trimSuffix file upSuffix)).1 = .errOther) :
      UpStep env file w (some .queryFailed, w.logCall (.query (trimSuffix file upSuffix)))
  /-- the ledger has an entry: nothing to do -/
  | skipped (id : Int) (hs : hasSuffix file upSuffix = true)
      (hq : (queryScan env w (trimSuffix file upSuffix)).1 = .ok id) :
      UpStep env file w (none, w.logCall (.query (trimSuffix file upSuffix)))
  /-- the script cannot be read -/
  | readErr (hs : hasSuffix file upSuffix = true)
      (hq : (queryScan env w (trimSuffix file upSuffix)).1 = .errNoRows)
      (hr : env.readFile file = none) :
      UpStep env file w (some (.applyFailed file .readFile),
        (w.logCall (.query (trimSuffix file upSuffix))).print ("Applying migration: " ++ file))
  /-- the store rejects the script -/
  | execErr (content : String) (hs : hasSuffix file upSuffix = true)
      (hq : (queryScan env w (trimSuffix file upSuffix)).1 = .errNoRows)
      (hr : env.readFile file = some content)
      (hx : env.fault ((w.logCall (.query (trimSuffix file upSuffix))).print
        ("Applying migration: " ++ file)) (.exec content) = true) :
      UpStep env file w (some (.applyFailed file .exec),
        ((w.logCall (.query (trimSuffix file upSuffix))).print
          ("Applying migration: " ++ file)).logCall (.exec content))
  /-- the script ran and the ledger insert fails -/
  | recordErr (content : String) (hs : hasSuffix file upSuffix = true)
      (hq : (queryScan env w (trimSuffix file upSuffix)).1 = .errNoRows)
      (hr : env.readFile file = some content)
      (hx : env.fault ((w.logCall (.query (trimSuffix file upSuffix))).print
        ("Applying migration: " ++ file)) (.exec content) = false)
      (hi : (execRecord env (((w.logCall (.query (trimSuffix file upSuffix))).print
        ("Applying migration: " ++ file)).logCall (.exec content))
          (trimSuffix file upSuffix)).1 = false) :
      UpStep env file w (some .recordFailed,
        ((((w.logCall (.query (trimSuffix file upSuffix))).print
          ("Applying migration: " ++ file)).logCall (.exec content)).logCall
            (.record (trimSuffix file upSuffix))))
  /-- the script ran and the ledger entry is inserted -/
  | recorded (content : String) (hs : hasSuffix file upSuffix = true)
      (hq : (queryScan env w (trimSuffix file upSuffix)).1 = .errNoRows)
      (hr : env.readFile file = some content)
      (hx : env.fault ((w.logCall (.query (trimSuffix file upSuffix))).print
        ("Applying migration: " ++ file)) (.exec content) = false)
      (hi : (execRecord env (((w.logCall (.query (trimSuffix file upSuffix))).print
        ("Applying migration: " ++ file)).logCall (.exec content))
          (trimSuffix file upSuffix)).1 = true) :
      UpStep env file w (none,
        { ledger := some (w.rows ++ [⟨(w.lastId : Int) + 1, trimSuffix file upSuffix⟩])
          lastId := w.lastId + 1
          log := w.log ++ [.query (trimSuffix file upSuffix), .exec content,
            .record (trimSuffix file upSuffix)]
          out := w.out ++ ["Applying migration: " ++ file] })

/-- The eight ways through the loop body of `down`, each with the result it produces. -/
inductive DownStep (env : Env) (file : String) (w : World) : Option Fatal × World → Prop
  /-- the entry name does not end in `_down.sql` -/
  | other (hs : hasSuffix file downSuffix = false) : DownStep env file w (none, w)
  /-- the ledger query fails -/
  | queryErr (hs : hasSuffix file downSuffix = true)
      (hq : (queryScan env w (trimSuffix file downSuffix)).1 = .errOther) :
      DownStep env file w (some .queryFailed, w.logCall (.query (trimSuffix file downSuffix)))
  /-- the ledger has no entry: nothing to do -/
  | notApplied (hs : hasSuffix file downSuffix = true)
      (hq : (queryScan env w (trimSuffix file downSuffix)).1 = .errNoRows) :
      DownStep env file w (none, w.logCall (.query (trimSuffix file downSuffix)))
  /-- the ledger has an entry whose id is not positive: nothing to do -/
  | notPositive (id : Int) (hs : hasSuffix file downSuffix = true)
      (hq : (queryScan env w (trimSuffix file downSuffix)).1 = .ok id) (hid : ¬ 0 < id) :
      DownStep env file w (none, w.logCall (.query (trimSuffix file downSuffix)))
  /-- the script cannot be read -/
  | readErr (id : Int) (hs : hasSuffix file downSuffix = true)
      (hq : (queryScan env w (trimSuffix file downSuffix)).1 = .ok id) (hid : 0 < id)
      (hr : env.readFile file = none) :
      DownStep env file w (some (.applyFailed file .readFile),
        (w.logCall (.query (trimSuffix file downSuffix))).print ("Resetting migration: " ++ file))
  /-- the store rejects the script -/
  | execErr (id : Int) (content : String) (hs : hasSuffix file downSuffix = true)
      (hq : (queryScan env w (trimSuffix file downSuffix)).1 = .ok id) (hid : 0 < id)
      (hr : env.readFile file = some content)
      (hx : env.fault ((w.logCall (.query (trimSuffix file downSuffix))).print
        ("Resetting migration: " ++ file)) (.exec content) = true) :
      DownStep env file w (some (.applyFailed file .exec),
        ((w.logCall (.query (trimSuffix file downSuffix))).print
          ("Resetting migration: " ++ file)).logCall (.exec content))
  /-- the script ran and the ledger delete fails -/
  | removeErr (id : Int) (content : String) (hs : hasSuffix file downSuffix = true)
      (hq : (queryScan env w (trimSuffix file downSuffix)).1 = .ok id) (hid : 0 < id)
      (hr : env.readFile file = some content)
      (hx : env.fault ((w.logCall (.query (trimSuffix file downSuffix))).print
        ("Resetting migration: " ++ file)) (.exec content) = false)
      (hd : (execDelete env (((w.logCall (.query (trimSuffix file downSuffix))).print
        ("Resetting migration: " ++ file)).logCall (.exec content)) id).1 = false) :
      DownStep env file w (some .removeFailed,
        ((((w.logCall (.query (trimSuffix file downSuffix))).print
          ("Resetting migration: " ++ file)).logCall (.exec content)).logCall (.delete id)))
  /-- the script ran and the ledger entry is deleted -/
  | removed (id : Int) (content : String) (hs : hasSuffix file downSuffix = true)
      (hq : (queryScan env w (trimSuffix file downSuffix)).1 = .ok id) (hid : 0 < id)
      (hr : env.readFile file = some content)
      (hx : env.fault ((w.logCall (.query (trimSuffix file downSuffix))).print
        ("Resetting migration: " ++ file)) (.exec content) = false)
      (hd : (execDelete env (((w.logCall (.query (trimSuffix file downSuffix))).print
        ("Resetting migration: " ++ file)).logCall (.exec content)) id).1 = true) :
      DownStep env file w (none,
        { ledger := some (w.rows.filter (fun e => e.id != id))
          lastId := w.lastId
          log := w.log ++ [.query (trimSuffix file downSuffix), .exec content, .delete id]
          out := w.out ++ ["Resetting migration: " ++ file] })

/-- The five ways through `checkMigrationTable`, each with the result it produces. -/
inductive CheckStep (env : Env) (w : World) : Option CheckErr × World → Prop
  /-- the probe fails -/
  | probeErr (hp : env.fault w .probe = true) :
      CheckStep env w (some .probeFailed, w.logCall .probe)
  /-- the affected-row count cannot be read -/
  | rowsErr (hp : env.fault w .probe = false)
      (hr : env.fault (w.logCall .probe) .rowsAffected = true) :
      CheckStep env w (some .rowsAffectedFailed, (w.logCall .probe).logCall .rowsAffected)
  /-- the table is there -/
  | present (hp : env.fault w .probe = false)
      (hr : env.fault (w.logCall .probe) .rowsAffected = false)
      (hl : w.ledger.isSome = true) :
      CheckStep env w (none, (w.logCall .probe).logCall .rowsAffected)
  /-- the table is absent and creating it fails -/
  | createErr (hp : env.fault w .probe = false)
      (hr : env.fault (w.logCall .probe) .rowsAffected = false)
      (hl : w.ledger = none)
      (hc : env.fault ((w.logCall .probe).logCall .rowsAffected) .createTable = true) :
      CheckStep env w (some .createFailed,
        ((w.logCall .probe).logCall .rowsAffected).logCall .createTable)
  /-- the table is absent and is created -/
  | created (hp : env.fault w .probe = false)
      (hr : env.fault (w.logCall .probe) .rowsAffected = false)
      (hl : w.ledger = none)
      (hc : env.fault ((w.logCall .probe).logCall .rowsAffected) .createTable = false) :
      CheckStep env w (none,
        { ledger := some [], lastId := w.lastId,
          log := w.log ++ [.probe, .rowsAffected, .createTable], out := w.out })

/-- Whether `down`, processing the directory entry `f`, reverts the ledger row `x`: the
entry is a reverse script of the row's identifier and the row's id is positive. -/
def revertedBy (f : String) (x : Entry) : Bool :=
  hasSuffix f downSuffix && decide (0 < x.id) && decide (x.name = trimSuffix f downSuffix)

/-- The ledger `up` builds from an empty one: identifiers and ids are pairwise distinct,
and every row has a positive id handed out by the store and the identifier of a forward
script of the listing. -/
def UpBuilt (files : List String) (w : World) : Prop :=
  w.names.Nodup ∧ (w.rows.map Entry.id).Nodup ∧
    ∀ e ∈ w.rows, 0 < e.id ∧ e.id ≤ (w.lastId : Int) ∧ e.name ∈ upUnits files

/-! ## The order of `sort.Slice` on names is a total order -/

instance : IsTotal String (fun a b => a.data ≤ b.data) :=
  ⟨fun a b => by
    rcases le_total a b with h | h
    · exact Or.inl (String.le_iff_toList_le.1 h)
    · exact Or.inr (String.le_iff_toList_le.1 h)⟩

instance : IsTrans String (fun a b => a.data ≤ b.data) :=
  ⟨fun _ _ _ hab hbc =>
    String.le_iff_toList_le.1
      (le_trans (String.le_iff_toList_le.2 hab) (String.le_iff_toList_le.2 hbc))⟩

instance : IsTotal String (fun a b => b.data ≤ a.data) :=
  ⟨fun a b => by
    rcases le_total a b with h | h
    · exact Or.inr (String.le_iff_toList_le.1 h)
    · exact Or.inl (String.le_iff_toList_le.1 h)⟩

instance : IsTrans String (fun a b => b.data ≤ a.data) :=
  ⟨fun _ _ _ hab hbc =>
    String.le_iff_toList_le.1
      (le_trans (String.le_iff_toList_le.2 hbc) (String.le_iff_toList_le.2 hab))⟩

instance : IsAntisymm String (fun a b => a.data ≤ b.data) :=
  ⟨fun _ _ hab hba => String.ext (le_antisymm hab hba)⟩

instance : IsAntisymm String (fun a b => b.data ≤ a.data) :=
  ⟨fun _ _ hab hba => String.ext (le_antisymm hba hab)⟩

/-! ## Go string helpers: lemmas -/

theorem hasSuffix_iff (s suffix : String) :
    hasSuffix s suffix = true ↔ ∃ x : List Char, s.data = x ++ suffix.data := by
  unfold hasSuffix
  simp only [Bool.and_eq_true, decide_eq_true_eq]
  constructor
  · rintro ⟨hlen, hdrop⟩
    refine ⟨s.data.take (s.data.length - suffix.data.length), ?_⟩
    conv_lhs => rw [← List.take_append_drop (s.data.length - suffix.data.length) s.data]
    rw [hdrop]
  · rintro ⟨x, hx⟩
    rw [hx]
    simp

theorem hasSuffix_append (x suffix : String) : hasSuffix (x ++ suffix) suffix = true := by
  rw [hasSuffix_iff]
  exact ⟨x.data, by simp⟩

theorem trimSuffix_append (x suffix : String) : trimSuffix (x ++ suffix) suffix = x := by
  unfold trimSuffix
  rw [if_pos (hasSuffix_append x suffix)]
  simp

theorem trimSuffix_append_self {f suffix : String} (h : hasSuffix f suffix = true) :
    trimSuffix f suffix ++ suffix = f := by
  obtain ⟨x, hx⟩ := (hasSuffix_iff f suffix).1 h
  unfold trimSuffix
  rw [if_pos h]
  apply String.ext
  simp [hx]

theorem trimSuffix_injOn {f g suffix : String} (hf : hasSuffix f suffix = true)
    (hg : hasSuffix g suffix = true) (h : trimSuffix f suffix = trimSuffix g suffix) :
    f = g := by
  rw [← trimSuffix_append_self hf, ← trimSuffix_append_self hg, h]

/-! ## Sorting: lemmas -/

theorem sortAsc_perm (files : List String) : (sortAsc files).Perm files :=
  List.perm_insertionSort _ files

theorem sortDesc_perm (files : List String) : (sortDesc files).Perm files :=
  List.perm_insertionSort _ files

theorem sortAsc_sorted (files : List String) :
    (sortAsc files).Sorted (fun a b => a.data ≤ b.data) :=
  List.sorted_insertionSort _ files

theorem sortDesc_sorted (files : List String) :
    (sortDesc files).Sorted (fun a b => b.data ≤ a.data) :=
  List.sorted_insertionSort _ files

/-- Whatever algorithm `sort.Slice` runs, an ascending arrangement of the names is the
list `sortAsc` computes. -/
theorem sortAsc_unique {files l : List String} (hp : l.Perm files)
    (hs : l.Sorted (fun a b => a.data ≤ b.data)) : l = sortAsc files :=
  List.eq_of_perm_of_sorted (hp.trans (sortAsc_perm files).symm) hs (sortAsc_sorted files)

/-- Whatever algorithm `sort.Slice` runs, a descending arrangement of the names is the
list `sortDesc` computes. -/
theorem sortDesc_unique {files l : List String} (hp : l.Perm files)
    (hs : l.Sorted (fun a b => b.data ≤ a.data)) : l = sortDesc files :=
  List.eq_of_perm_of_sorted (hp.trans (sortDesc_perm files).symm) hs (sortDesc_sorted files)

/-! ## The store: what each call does -/

@[simp] theorem logCall_ledger (w : World) (c : Call) : (w.logCall c).ledger = w.ledger := rfl
@[simp] theorem logCall_lastId (w : World) (c : Call) : (w.logCall c).lastId = w.lastId := rfl
@[simp] theorem logCall_log (w : World) (c : Call) : (w.logCall c).log = w.log ++ [c] := rfl
@[simp] theorem logCall_out (w : World) (c : Call) : (w.logCall c).out = w.out := rfl
@[simp] theorem logCall_rows (w : World) (c : Call) : (w.logCall c).rows = w.rows := rfl
@[simp] theorem logCall_names (w : World) (c : Call) : (w.logCall c).names = w.names := rfl
@[simp] theorem print_ledger (w : World) (l : String) : (w.print l).ledger = w.ledger := rfl
@[simp] theorem print_lastId (w : World) (l : String) : (w.print l).lastId = w.lastId := rfl
@[simp] theorem print_log (w : World) (l : String) : (w.print l).log = w.log := rfl
@[simp] theorem print_out (w : World) (l : String) : (w.print l).out = w.out ++ [l] := rfl
@[simp] theorem print_rows (w : World) (l : String) : (w.print l).rows = w.rows := rfl
@[simp] theorem print_names (w : World) (l : String) : (w.print l).names = w.names := rfl

theorem rows_of_ledger {w : World} {rows : List Entry} (h : w.ledger = some rows) :
    w.rows = rows := by
  simp [World.rows, h]

theorem queryScan_snd (env : Env) (w : World) (n : String) :
    (queryScan env w n).2 = w.logCall (.query n) := by
  unfold queryScan
  split
  · rfl
  · split
    · rfl
    · split
      · rfl
      · split <;> rfl

theorem queryScan_ok {env : Env} {w : World} {n : String} {id : Int}
    (h : (queryScan env w n).1 = .ok id) :
    env.fault w (.query n) = false ∧ fitsInt32 id = true ∧
      ∃ e, w.rows.find? (fun e => e.name == n) = some e ∧ e.id = id := by
  unfold queryScan at h
  split at h
  · simp at h
  · rename_i hf
    split at h
    · simp at h
    · rename_i rows hrows
      split at h
      · simp at h
      · rename_i e he
        split at h
        · rename_i hfit
          simp only [ScanResult.ok.injEq] at h
          refine ⟨by simpa using hf, h ▸ hfit, e, ?_, h⟩
          rw [rows_of_ledger hrows]
          exact he
        · simp at h

theorem queryScan_errNoRows {env : Env} {w : World} {n : String}
    (h : (queryScan env w n).1 = .errNoRows) :
    env.fault w (.query n) = false ∧ w.ledger.isSome = true ∧ n ∉ w.names := by
  unfold queryScan at h
  split at h
  · simp at h
  · rename_i hf
    split at h
    · simp at h
    · rename_i rows hrows
      split at h
      · rename_i hnone
        refine ⟨by simpa using hf, by simp [hrows], ?_⟩
        rw [World.names, rows_of_ledger hrows]
        rw [List.find?_eq_none] at hnone
        intro hmem
        obtain ⟨e, he, hen⟩ := List.mem_map.1 hmem
        exact hnone e he (by simp [hen])
      · split at h <;> simp at h

theorem queryScan_of_not_mem {env : Env} {w : World} {n : String}
    (hf : env.fault w (.query n) = false) (hs : w.ledger.isSome = true) (hn : n ∉ w.names) :
    queryScan env w n = (.errNoRows, w.logCall (.query n)) := by
  obtain ⟨rows, hrows⟩ := Option.isSome_iff_exists.1 hs
  have hfind : rows.find? (fun e => e.name == n) = none := by
    rw [List.find?_eq_none]
    intro e he hen
    apply hn
    rw [World.names, rows_of_ledger hrows]
    exact List.mem_map.2 ⟨e, he, by simpa using hen⟩
  simp [queryScan, hf, hrows, hfind]

theorem queryScan_of_find {env : Env} {w : World} {n : String} {e : Entry}
    (hf : env.fault w (.query n) = false) (hs : w.ledger.isSome = true)
    (he : w.rows.find? (fun e => e.name == n) = some e) (hfit : fitsInt32 e.id = true) :
    queryScan env w n = (.ok e.id, w.logCall (.query n)) := by
  obtain ⟨rows, hrows⟩ := Option.isSome_iff_exists.1 hs
  rw [rows_of_ledger hrows] at he
  simp [queryScan, hf, hrows, he, hfit]

theorem execScript_snd (env : Env) (w : World) (c : String) :
    (execScript env w c).2 = w.logCall (.exec c) := rfl

theorem execScript_fst (env : Env) (w : World) (c : String) :
    (execScript env w c).1 = !env.fault w (.exec c) := rfl

theorem execRecord_false {env : Env} {w : World} {n : String}
    (h : (execRecord env w n).1 = false) : (execRecord env w n).2 = w.logCall (.record n) := by
  unfold execRecord at h ⊢
  by_cases h1 : env.fault w (.record n) = true
  · simp [h1]
  · cases hl : w.ledger with
    | none => simp [h1]
    | some rows =>
      by_cases h2 : (env.uniqueNames && rows.any (fun e => e.name == n)) = true
      · rw [if_neg h1]
        simp only [if_pos h2]
      · rw [if_neg h1, hl] at h
        simp only [if_neg h2] at h
        simp at h

theorem execRecord_true {env : Env} {w : World} {n : String}
    (h : (execRecord env w n).1 = true) :
    w.ledger.isSome = true ∧ (env.uniqueNames = true → n ∉ w.names) ∧
      (execRecord env w n).2 =
        { w.logCall (.record n) with
            ledger := some (w.rows ++ [⟨(w.lastId : Int) + 1, n⟩])
            lastId := w.lastId + 1 } := by
  unfold execRecord at h ⊢
  by_cases h1 : env.fault w (.record n) = true
  · simp [h1] at h
  · cases hl : w.ledger with
    | none => simp [h1, hl] at h
    | some rows =>
      by_cases h2 : (env.uniqueNames && rows.any (fun e => e.name == n)) = true
      · rw [if_neg h1, hl] at h
        simp only [if_pos h2] at h
        simp at h
      · refine ⟨rfl, ?_, ?_⟩
        · intro hu hmem
          apply h2
          rw [World.names, rows_of_ledger hl] at hmem
          obtain ⟨e, he, hen⟩ := List.mem_map.1 hmem
          simp only [hu, Bool.true_and, List.any_eq_true]
          exact ⟨e, he, by simp [hen]⟩
        · rw [if_neg h1]
          simp only [if_neg h2, rows_of_ledger hl]

theorem execRecord_of_not_mem {env : Env} {w : World} {n : String}
    (hf : env.fault w (.record n) = false) (hs : w.ledger.isSome = true) (hn : n ∉ w.names) :
    (execRecord env w n).1 = true := by
  obtain ⟨rows, hrows⟩ := Option.isSome_iff_exists.1 hs
  have hany : rows.any (fun e => e.name == n) = false := by
    rw [Bool.eq_false_iff]
    intro hany
    obtain ⟨e, he, hen⟩ := List.any_eq_true.1 hany
    apply hn
    rw [World.names, rows_of_ledger hrows]
    exact List.mem_map.2 ⟨e, he, by simpa using hen⟩
  simp [execRecord, hf, hrows, hany]

theorem execDelete_false {env : Env} {w : World} {id : Int}
    (h : (execDelete env w id).1 = false) : (execDelete env w id).2 = w.logCall (.delete id) := by
  unfold execDelete at h ⊢
  by_cases h1 : env.fault w (.delete id) = true
  · simp [h1]
  · cases hl : w.ledger with
    | none => simp [h1]
    | some rows =>
      rw [if_neg h1, hl] at h
      simp at h

theorem execDelete_true {env : Env} {w : World} {id : Int}
    (h : (execDelete env w id).1 = true) :
    w.ledger.isSome = true ∧
      (execDelete env w id).2 =
        { w.logCall (.delete id) with ledger := some (w.rows.filter (fun e => e.id != id)) } := by
  unfold execDelete at h ⊢
  by_cases h1 : env.fault w (.delete id) = true
  · simp [h1] at h
  · cases hl : w.ledger with
    | none => simp [h1, hl] at h
    | some rows =>
      refine ⟨rfl, ?_⟩
      rw [if_neg h1]
      simp only [rows_of_ledger hl]

theorem execDelete_of_ok {env : Env} {w : World} {id : Int}
    (hf : env.fault w (.delete id) = false) (hs : w.ledger.isSome = true) :
    (execDelete env w id).1 = true := by
  obtain ⟨rows, hrows⟩ := Option.isSome_iff_exists.1 hs
  simp [execDelete, hf, hrows]


/-! ## The loop bodies, path by path -/

theorem upFile_step (env : Env) (file : String) (w : World) :
    UpStep env file w (upFile env file w) := by
  unfold upFile
  by_cases hs : hasSuffix file upSuffix = true
  · rw [if_pos hs]
    have hsnd := queryScan_snd env w (trimSuffix file upSuffix)
    rcases hq : queryScan env w (trimSuffix file upSuffix) with ⟨r, w1⟩
    rw [hq] at hsnd
    simp only at hsnd
    subst hsnd
    have hq1 : (queryScan env w (trimSuffix file upSuffix)).1 = r := by rw [hq]
    cases r with
    | ok id => exact UpStep.skipped id hs hq1
    | errOther => exact UpStep.queryErr hs hq1
    | errNoRows =>
      simp only
      cases hr : env.readFile file with
      | none => exact UpStep.readErr hs hq1 hr
      | some content =>
        simp only
        by_cases hx : env.fault ((w.logCall (.query (trimSuffix file upSuffix))).print
            ("Applying migration: " ++ file)) (.exec content) = true
        · simp only [execScript, hx, Bool.not_true]
          exact UpStep.execErr content hs hq1 hr hx
        · have hx' := Bool.eq_false_iff.2 hx
          simp only [execScript, hx', Bool.not_false]
          cases hi : (execRecord env (((w.logCall (.query (trimSuffix file upSuffix))).print
              ("Applying migration: " ++ file)).logCall (.exec content))
                (trimSuffix file upSuffix)).1 with
          | false =>
            have h2 := execRecord_false hi
            rcases hrec : execRecord env (((w.logCall (.query (trimSuffix file upSuffix))).print
              ("Applying migration: " ++ file)).logCall (.exec content))
                (trimSuffix file upSuffix) with ⟨b, w3⟩
            rw [hrec] at hi h2
            simp only at hi h2
            subst hi h2
            exact UpStep.recordErr content hs hq1 hr hx' (by rw [hrec])
          | true =>
            have h2 := (execRecord_true hi).2.2
            rcases hrec : execRecord env (((w.logCall (.query (trimSuffix file upSuffix))).print
              ("Applying migration: " ++ file)).logCall (.exec content))
                (trimSuffix file upSuffix) with ⟨b, w3⟩
            rw [hrec] at hi h2
            simp only at hi h2
            subst hi h2
            have := UpStep.recorded content hs hq1 hr hx' (by rw [hrec])
            simpa [World.logCall, World.print, World.rows] using this
  · rw [if_neg hs]
    exact UpStep.other (Bool.eq_false_iff.2 hs)

theorem downFile_step (env : Env) (file : String) (w : World) :
    DownStep env file w (downFile env file w) := by
  unfold downFile
  by_cases hs : hasSuffix file downSuffix = true
  · rw [if_pos hs]
    have hsnd := queryScan_snd env w (trimSuffix file downSuffix)
    rcases hq : queryScan env w (trimSuffix file downSuffix) with ⟨r, w1⟩
    rw [hq] at hsnd
    simp only at hsnd
    subst hsnd
    have hq1 : (queryScan env w (trimSuffix file downSuffix)).1 = r := by rw [hq]
    cases r with
    | errNoRows => exact DownStep.notApplied hs hq1
    | errOther => exact DownStep.queryErr hs hq1
    | ok id =>
      simp only
      by_cases hid : 0 < id
      · rw [if_pos hid]
        cases hr : env.readFile file with
        | none => exact DownStep.readErr id hs hq1 hid hr
        | some content =>
          simp only
          by_cases hx : env.fault ((w.logCall (.query (trimSuffix file downSuffix))).print
              ("Resetting migration: " ++ file)) (.exec content) = true
          · simp only [execScript, hx, Bool.not_true]
            exact DownStep.execErr id content hs hq1 hid hr hx
          · have hx' := Bool.eq_false_iff.2 hx
            simp only [execScript, hx', Bool.not_false]
            cases hd : (execDelete env (((w.logCall (.query (trimSuffix file downSuffix))).print
                ("Resetting migration: " ++ file)).logCall (.exec content)) id).1 with
            | false =>
              have h2 := execDelete_false hd
              rcases hdel : execDelete env
                (((w.logCall (.query (trimSuffix file downSuffix))).print
                  ("Resetting migration: " ++ file)).logCall (.exec content)) id with ⟨b, w3⟩
              rw [hdel] at hd h2
              simp only at hd h2
              subst hd h2
              exact DownStep.removeErr id content hs hq1 hid hr hx' (by rw [hdel])
            | true =>
              have h2 := (execDelete_true hd).2
              rcases hdel : execDelete env
                (((w.logCall (.query (trimSuffix file downSuffix))).print
                  ("Resetting migration: " ++ file)).logCall (.exec content)) id with ⟨b, w3⟩
              rw [hdel] at hd h2
              simp only at hd h2
              subst hd h2
              have := DownStep.removed id content hs hq1 hid hr hx' (by rw [hdel])
              simpa [World.logCall, World.print, World.rows] using this
      · rw [if_neg hid]
        exact DownStep.notPositive id hs hq1 hid
  · rw [if_neg hs]
    exact DownStep.other (Bool.eq_false_iff.2 hs)


/-! ## The table check, path by path -/

theorem checkMigrationTable_step (env : Env) (w : World) :
    CheckStep env w (checkMigrationTable env w) := by
  unfold checkMigrationTable execProbe
  by_cases hp : env.fault w .probe = true
  · simp only [hp, if_true]
    exact CheckStep.probeErr hp
  · have hp' := Bool.eq_false_iff.2 hp
    simp only [hp', Bool.false_eq_true, if_false]
    unfold rowsAffected
    by_cases hr : env.fault (w.logCall .probe) .rowsAffected = true
    · simp only [hr, if_true]
      exact CheckStep.rowsErr hp' hr
    · have hr' := Bool.eq_false_iff.2 hr
      simp only [hr', Bool.false_eq_true, if_false]
      cases hl : w.ledger with
      | some rows =>
        simp only [Option.isSome_some, if_true, one_ne_zero, if_false]
        exact CheckStep.present hp' hr' (by simp [hl])
      | none =>
        simp only [Option.isSome_none, Bool.false_eq_true, if_false, if_true]
        unfold execCreate
        by_cases hc : env.fault ((w.logCall .probe).logCall .rowsAffected) .createTable = true
        · simp only [hc, if_true]
          exact CheckStep.createErr hp' hr' hl hc
        · have hc' := Bool.eq_false_iff.2 hc
          simp only [hc', Bool.false_eq_true, if_false]
          have := CheckStep.created hp' hr' hl hc'
          simpa [World.logCall, World.rows, hl] using this

theorem checkMigrationTable_frame (env : Env) (w : World) :
    (checkMigrationTable env w).2.rows = w.rows ∧
    (checkMigrationTable env w).2.lastId = w.lastId ∧
    (checkMigrationTable env w).2.out = w.out ∧
    (∃ d, (checkMigrationTable env w).2.log = w.log ++ d ∧ ∀ c ∈ d, c.isTableCall = true) ∧
    ((checkMigrationTable env w).1 = none → (checkMigrationTable env w).2.ledger.isSome = true) := by
  have h := checkMigrationTable_step env w
  generalize checkMigrationTable env w = r at h
  cases h with
  | probeErr hp => exact ⟨rfl, rfl, rfl, ⟨[.probe], rfl, by simp [Call.isTableCall]⟩, by simp⟩
  | rowsErr hp hr =>
    exact ⟨rfl, rfl, rfl, ⟨[.probe, .rowsAffected], by simp, by simp [Call.isTableCall]⟩,
      by simp⟩
  | present hp hr hl =>
    exact ⟨rfl, rfl, rfl, ⟨[.probe, .rowsAffected], by simp, by simp [Call.isTableCall]⟩,
      fun _ => hl⟩
  | createErr hp hr hl hc =>
    exact ⟨rfl, rfl, rfl,
      ⟨[.probe, .rowsAffected, .createTable], by simp, by simp [Call.isTableCall]⟩, by simp⟩
  | created hp hr hl hc =>
    exact ⟨by simp [World.rows, hl], rfl, rfl,
      ⟨[.probe, .rowsAffected, .createTable], rfl, by simp [Call.isTableCall]⟩, fun _ => rfl⟩


/-! ## The loops -/

theorem upLoop_cons_none {env : Env} {file : String} {rest : List String} {w : World}
    (h : (upFile env file w).1 = none) :
    upLoop env (file :: rest) w = upLoop env rest (upFile env file w).2 := by
  rcases hf : upFile env file w with ⟨o, w1⟩
  rw [hf] at h
  simp only at h
  subst h
  simp [upLoop, hf]

theorem upLoop_cons_some {env : Env} {file : String} {rest : List String} {w : World}
    {e : Fatal} (h : (upFile env file w).1 = some e) :
    upLoop env (file :: rest) w = upFile env file w := by
  rcases hf : upFile env file w with ⟨o, w1⟩
  rw [hf] at h
  simp only at h
  subst h
  simp [upLoop, hf]

theorem upLoop_cons_ok {env : Env} {file : String} {rest : List String} {w w2 : World}
    (h : upLoop env (file :: rest) w = (none, w2)) :
    (upFile env file w).1 = none ∧ upLoop env rest (upFile env file w).2 = (none, w2) := by
  cases ho : (upFile env file w).1 with
  | none => exact ⟨rfl, by rw [← upLoop_cons_none ho]; exact h⟩
  | some e =>
    rw [upLoop_cons_some ho] at h
    rw [h] at ho
    simp at ho

theorem upLoop_append_ok {env : Env} {pre : List String} {w w2 : World}
    (h : upLoop env pre w = (none, w2)) (post : List String) :
    upLoop env (pre ++ post) w = upLoop env post w2 := by
  induction pre generalizing w with
  | nil =>
    simp only [upLoop, Prod.mk.injEq, true_and] at h
    subst h
    rfl
  | cons f fs ih =>
    obtain ⟨h1, h2⟩ := upLoop_cons_ok h
    rw [List.cons_append, upLoop_cons_none h1]
    exact ih h2

theorem upLoop_invariant {env : Env} (P : World → Prop) (files : List String)
    (hstep : ∀ f ∈ files, ∀ w, P w → P (upFile env f w).2) (w : World) (hw : P w) :
    P (upLoop env files w).2 := by
  induction files generalizing w with
  | nil => exact hw
  | cons f fs ih =>
    cases ho : (upFile env f w).1 with
    | none =>
      rw [upLoop_cons_none ho]
      exact ih (fun g hg => hstep g (List.mem_cons_of_mem _ hg)) _
        (hstep f (List.mem_cons_self _ _) w hw)
    | some e =>
      rw [upLoop_cons_some ho]
      exact hstep f (List.mem_cons_self _ _) w hw

theorem downLoop_cons_none {env : Env} {file : String} {rest : List String} {w : World}
    (h : (downFile env file w).1 = none) :
    downLoop env (file :: rest) w = downLoop env rest (downFile env file w).2 := by
  rcases hf : downFile env file w with ⟨o, w1⟩
  rw [hf] at h
  simp only at h
  subst h
  simp [downLoop, hf]

theorem downLoop_cons_some {env : Env} {file : String} {rest : List String} {w : World}
    {e : Fatal} (h : (downFile env file w).1 = some e) :
    downLoop env (file :: rest) w = downFile env file w := by
  rcases hf : downFile env file w with ⟨o, w1⟩
  rw [hf] at h
  simp only at h
  subst h
  simp [downLoop, hf]

theorem downLoop_cons_ok {env : Env} {file : String} {rest : List String} {w w2 : World}
    (h : downLoop env (file :: rest) w = (none, w2)) :
    (downFile env file w).1 = none ∧ downLoop env rest (downFile env file w).2 = (none, w2) := by
  cases ho : (downFile env file w).1 with
  | none => exact ⟨rfl, by rw [← downLoop_cons_none ho]; exact h⟩
  | some e =>
    rw [downLoop_cons_some ho] at h
    rw [h] at ho
    simp at ho

theorem downLoop_append_ok {env : Env} {pre : List String} {w w2 : World}
    (h : downLoop env pre w = (none, w2)) (post : List String) :
    downLoop env (pre ++ post) w = downLoop env post w2 := by
  induction pre generalizing w with
  | nil =>
    simp only [downLoop, Prod.mk.injEq, true_and] at h
    subst h
    rfl
  | cons f fs ih =>
    obtain ⟨h1, h2⟩ := downLoop_cons_ok h
    rw [List.cons_append, downLoop_cons_none h1]
    exact ih h2

theorem downLoop_invariant {env : Env} (P : World → Prop) (files : List String)
    (hstep : ∀ f ∈ files, ∀ w, P w → P (downFile env f w).2) (w : World) (hw : P w) :
    P (downLoop env files w).2 := by
  induction files generalizing w with
  | nil => exact hw
  | cons f fs ih =>
    cases ho : (downFile env f w).1 with
    | none =>
      rw [downLoop_cons_none ho]
      exact ih (fun g hg => hstep g (List.mem_cons_of_mem _ hg)) _
        (hstep f (List.mem_cons_self _ _) w hw)
    | some e =>
      rw [downLoop_cons_some ho]
      exact hstep f (List.mem_cons_self _ _) w hw


/-! ## What one loop body does to the ledger and to the trace -/

theorem names_of_ledger {w w1 : World} (h : w1.ledger = w.ledger) : w1.names = w.names := by
  simp [World.names, World.rows, h]

theorem rows_of_ledger_eq {w w1 : World} (h : w1.ledger = w.ledger) : w1.rows = w.rows := by
  simp [World.rows, h]

theorem upFile_ledger (env : Env) (file : String) (w : World) :
    ((upFile env file w).2.ledger = w.ledger ∧ (upFile env file w).2.lastId = w.lastId) ∨
    (hasSuffix file upSuffix = true ∧ trimSuffix file upSuffix ∉ w.names ∧
      w.ledger.isSome = true ∧ (upFile env file w).1 = none ∧
      (upFile env file w).2.ledger =
        some (w.rows ++ [⟨(w.lastId : Int) + 1, trimSuffix file upSuffix⟩]) ∧
      (upFile env file w).2.lastId = w.lastId + 1) := by
  have h := upFile_step env file w
  generalize upFile env file w = r at h
  cases h with
  | other hs => exact Or.inl ⟨rfl, rfl⟩
  | queryErr hs hq => exact Or.inl ⟨rfl, rfl⟩
  | skipped id hs hq => exact Or.inl ⟨rfl, rfl⟩
  | readErr hs hq hr => exact Or.inl ⟨rfl, rfl⟩
  | execErr content hs hq hr hx => exact Or.inl ⟨rfl, rfl⟩
  | recordErr content hs hq hr hx hi => exact Or.inl ⟨rfl, rfl⟩
  | recorded content hs hq hr hx hi =>
    obtain ⟨_, hsome, hn⟩ := queryScan_errNoRows hq
    exact Or.inr ⟨hs, hn, hsome, rfl, rfl, rfl⟩

theorem upFile_out_log (env : Env) (file : String) (w : World) :
    ∃ d, (upFile env file w).2.log = w.log ++ d ∧ ∀ c ∈ d, upCallOf env file c := by
  have h := upFile_step env file w
  generalize upFile env file w = r at h
  cases h with
  | other hs => exact ⟨[], by simp, by simp⟩
  | queryErr hs hq => exact ⟨[_], rfl, by simp [upCallOf, hs]⟩
  | skipped id hs hq => exact ⟨[_], rfl, by simp [upCallOf, hs]⟩
  | readErr hs hq hr => exact ⟨[_], rfl, by simp [upCallOf, hs]⟩
  | execErr content hs hq hr hx =>
    exact ⟨[.query (trimSuffix file upSuffix), .exec content], by simp,
      by simp [upCallOf, hs, hr]⟩
  | recordErr content hs hq hr hx hi =>
    exact ⟨[.query (trimSuffix file upSuffix), .exec content,
      .record (trimSuffix file upSuffix)], by simp, by simp [upCallOf, hs, hr]⟩
  | recorded content hs hq hr hx hi => exact ⟨[_, _, _], rfl, by simp [upCallOf, hs, hr]⟩

theorem downFile_ledger (env : Env) (file : String) (w : World) :
    (downFile env file w).2.lastId = w.lastId ∧
    ((downFile env file w).2.ledger = w.ledger ∨
      ∃ e, hasSuffix file downSuffix = true ∧
        w.rows.find? (fun x => x.name == trimSuffix file downSuffix) = some e ∧ 0 < e.id ∧
        w.ledger.isSome = true ∧ (downFile env file w).1 = none ∧
        (downFile env file w).2.ledger = some (w.rows.filter (fun x => x.id != e.id))) := by
  have h := downFile_step env file w
  generalize downFile env file w = r at h
  cases h with
  | other hs => exact ⟨rfl, Or.inl rfl⟩
  | queryErr hs hq => exact ⟨rfl, Or.inl rfl⟩
  | notApplied hs hq => exact ⟨rfl, Or.inl rfl⟩
  | notPositive id hs hq hid => exact ⟨rfl, Or.inl rfl⟩
  | readErr id hs hq hid hr => exact ⟨rfl, Or.inl rfl⟩
  | execErr id content hs hq hid hr hx => exact ⟨rfl, Or.inl rfl⟩
  | removeErr id content hs hq hid hr hx hd => exact ⟨rfl, Or.inl rfl⟩
  | removed id content hs hq hid hr hx hd =>
    obtain ⟨_, _, e, he, hid'⟩ := queryScan_ok hq
    subst hid'
    exact ⟨rfl, Or.inr ⟨e, hs, he, hid, (execDelete_true hd).1, rfl, rfl⟩⟩

theorem find_name_mem {rows : List Entry} {n : String} {e : Entry}
    (h : rows.find? (fun x => x.name == n) = some e) : (⟨e.id, n⟩ : Entry) ∈ rows := by
  have hmem := List.mem_of_find?_eq_some h
  have hname : e.name = n := by simpa using List.find?_some h
  rw [← hname]
  exact hmem

theorem downFile_out_log (env : Env) (file : String) (w : World) :
    ∃ d, (downFile env file w).2.log = w.log ++ d ∧
      ∀ c ∈ d, downCallOf env w.rows file c := by
  have h := downFile_step env file w
  generalize downFile env file w = r at h
  cases h with
  | other hs => exact ⟨[], by simp, by simp⟩
  | queryErr hs hq => exact ⟨[_], rfl, by simp [downCallOf, hs]⟩
  | notApplied hs hq => exact ⟨[_], rfl, by simp [downCallOf, hs]⟩
  | notPositive id hs hq hid => exact ⟨[_], rfl, by simp [downCallOf, hs]⟩
  | readErr id hs hq hid hr => exact ⟨[_], rfl, by simp [downCallOf, hs]⟩
  | execErr id content hs hq hid hr hx =>
    exact ⟨[.query (trimSuffix file downSuffix), .exec content], by simp,
      by simp [downCallOf, hs, hr]⟩
  | removeErr id content hs hq hid hr hx hd =>
    obtain ⟨_, _, e, he, hid'⟩ := queryScan_ok hq
    subst hid'
    have hmem := find_name_mem he
    exact ⟨[.query (trimSuffix file downSuffix), .exec content, .delete e.id], by simp,
      by simp [downCallOf, hs, hr, hmem]⟩
  | removed id content hs hq hid hr hx hd =>
    obtain ⟨_, _, e, he, hid'⟩ := queryScan_ok hq
    subst hid'
    have hmem := find_name_mem he
    exact ⟨[.query (trimSuffix file downSuffix), .exec content, .delete e.id], rfl,
      by simp [downCallOf, hs, hr, hmem]⟩

/-! ## Ledger uniqueness -/

theorem upFile_names_nodup (env : Env) (file : String) (w : World) (h : w.names.Nodup) :
    (upFile env file w).2.names.Nodup := by
  rcases upFile_ledger env file w with ⟨hl, _⟩ | ⟨_, hn, _, _, hl, _⟩
  · rw [names_of_ledger hl]
    exact h
  · rw [World.names, rows_of_ledger hl, List.map_append]
    exact List.Nodup.append h (List.nodup_singleton _) (by simpa [World.names] using hn)

theorem downFile_rows_sublist (env : Env) (file : String) (w : World) :
    (downFile env file w).2.rows.Sublist w.rows := by
  rcases (downFile_ledger env file w).2 with hl | ⟨e, _, _, _, _, _, hl⟩
  · rw [rows_of_ledger_eq hl]
  · rw [rows_of_ledger hl]
    exact List.filter_sublist _

theorem upLoop_names_nodup (env : Env) (files : List String) (w : World) (h : w.names.Nodup) :
    (upLoop env files w).2.names.Nodup :=
  upLoop_invariant (fun w => w.names.Nodup) files
    (fun f _ w hw => upFile_names_nodup env f w hw) w h

theorem downLoop_rows_sublist (env : Env) (files : List String) (w : World) :
    (downLoop env files w).2.rows.Sublist w.rows :=
  downLoop_invariant (fun w1 => w1.rows.Sublist w.rows) files
    (fun f _ w1 hw => (downFile_rows_sublist env f w1).trans hw) w (List.Sublist.refl _)

theorem names_nodup_of_sublist {w w1 : World} (hs : w1.rows.Sublist w.rows)
    (h : w.names.Nodup) : w1.names.Nodup :=
  List.Nodup.sublist (List.Sublist.map _ hs) h


/-! ## Whole runs -/

theorem up_invariant {env : Env} (P : World → Prop)
    (hcheck : ∀ w, P w → P (checkMigrationTable env w).2)
    (hstep : ∀ f w, P w → P (upFile env f w).2)
    (hprint : ∀ w l, P w → P (w.print l)) (w : World) (hw : P w) : P (up env w).2 := by
  unfold up
  split
  · have h1 := hcheck w hw
    rcases hc : checkMigrationTable env w with ⟨o, w1⟩
    rw [hc] at h1
    cases o with
    | some e => exact h1
    | none =>
      simp only
      cases hd : env.readDir with
      | none => exact h1
      | some files =>
        simp only
        have h2 := upLoop_invariant P (sortAsc files) (fun f _ w hw => hstep f w hw) w1 h1
        rcases hl : upLoop env (sortAsc files) w1 with ⟨o2, w2⟩
        rw [hl] at h2
        cases o2 with
        | some e => exact h2
        | none => exact hprint _ _ h2
  · exact hw

theorem down_invariant {env : Env} (P : World → Prop)
    (hcheck : ∀ w, P w → P (checkMigrationTable env w).2)
    (hstep : ∀ f w, P w → P (downFile env f w).2)
    (hprint : ∀ w l, P w → P (w.print l)) (w : World) (hw : P w) : P (down env w).2 := by
  unfold down
  split
  · have h1 := hcheck w hw
    rcases hc : checkMigrationTable env w with ⟨o, w1⟩
    rw [hc] at h1
    cases o with
    | some e => exact h1
    | none =>
      simp only
      cases hd : env.readDir with
      | none => exact h1
      | some files =>
        simp only
        have h2 := downLoop_invariant P (sortDesc files) (fun f _ w hw => hstep f w hw) w1 h1
        rcases hl : downLoop env (sortDesc files) w1 with ⟨o2, w2⟩
        rw [hl] at h2
        cases o2 with
        | some e => exact h2
        | none => exact hprint _ _ h2
  · exact hw

theorem checkMigrationTable_names (env : Env) (w : World) :
    (checkMigrationTable env w).2.names = w.names := by
  rw [World.names, (checkMigrationTable_frame env w).1]
  rfl

theorem execDelete_rows_sublist (env : Env) (w : World) (id : Int) :
    (execDelete env w id).2.rows.Sublist w.rows := by
  cases h : (execDelete env w id).1 with
  | false => rw [execDelete_false h]; exact List.Sublist.refl _
  | true =>
    rw [(execDelete_true h).2]
    exact List.filter_sublist _

theorem execRecord_names_nodup (env : Env) (w : World) (n : String) (hn : n ∉ w.names)
    (h : w.names.Nodup) : (execRecord env w n).2.names.Nodup := by
  cases hr : (execRecord env w n).1 with
  | false => rw [execRecord_false hr]; exact h
  | true =>
    rw [(execRecord_true hr).2.2]
    simp only [World.names, World.rows, Option.getD_some, List.map_append, List.map_cons,
      List.map_nil]
    exact List.Nodup.append h (List.nodup_singleton _) (by simpa [World.names] using hn)

/-- C8: ledger uniqueness is an invariant of the engine. If no two ledger entries share a
migration identifier, then that still holds after every store call the engine makes
(query, script, delete, and an insert of an identifier the ledger lacks), after the loops
of `up` and `down` over any list of directory entries, after the table check and after
whole runs of `up` and `down`, for every environment (every choice of the calls the store
rejects and of the files that cannot be read), whether the run completes or aborts. And
when the ledger query of a unit returns an entry, all `up` does for that unit is that
query: it issues no insert. -/
theorem ledger_uniqueness_invariant (env : Env) (w : World) (h : w.names.Nodup) :
    (∀ n, (queryScan env w n).2.names.Nodup) ∧
    (∀ content, (execScript env w content).2.names.Nodup) ∧
    (∀ id, (execDelete env w id).2.names.Nodup) ∧
    (∀ n, n ∉ w.names → (execRecord env w n).2.names.Nodup) ∧
    (∀ files, (upLoop env files w).2.names.Nodup) ∧
    (∀ files, (downLoop env files w).2.names.Nodup) ∧
    (checkMigrationTable env w).2.names.Nodup ∧
    (up env w).2.names.Nodup ∧ (down env w).2.names.Nodup ∧
    (∀ file id, hasSuffix file upSuffix = true →
      (queryScan env w (trimSuffix file upSuffix)).1 = .ok id →
      upFile env file w = (none, w.logCall (.query (trimSuffix file upSuffix)))) := by
  refine ⟨?_, ?_, ?_, ?_, ?_, ?_, ?_, ?_, ?_, ?_⟩
  · intro n
    rw [queryScan_snd]
    exact h
  · intro content
    exact h
  · intro id
    exact names_nodup_of_sublist (execDelete_rows_sublist env w id) h
  · intro n hn
    exact execRecord_names_nodup env w n hn h
  · intro files
    exact upLoop_names_nodup env files w h
  · intro files
    exact names_nodup_of_sublist (downLoop_rows_sublist env files w) h
  · rw [checkMigrationTable_names]
    exact h
  · exact up_invariant (fun w => w.names.Nodup)
      (fun w hw => by show (checkMigrationTable env w).2.names.Nodup; rw [checkMigrationTable_names]; exact hw)
      (fun f w hw => upFile_names_nodup env f w hw) (fun _ _ hw => hw) w h
  · exact down_invariant (fun w => w.names.Nodup)
      (fun w hw => by show (checkMigrationTable env w).2.names.Nodup; rw [checkMigrationTable_names]; exact hw)
      (fun f w hw => names_nodup_of_sublist (downFile_rows_sublist env f w) hw)
      (fun _ _ hw => hw) w h
  · intro file id hs hq
    have hstep := upFile_step env file w
    generalize upFile env file w = r at hstep
    cases hstep with
    | other hs' => rw [hs] at hs'; simp at hs'
    | queryErr _ hq' => rw [hq] at hq'; simp at hq'
    | skipped id' _ _ => rfl
    | readErr _ hq' _ => rw [hq] at hq'; simp at hq'
    | execErr _ _ hq' _ _ => rw [hq] at hq'; simp at hq'
    | recordErr _ _ hq' _ _ _ => rw [hq] at hq'; simp at hq'
    | recorded _ _ hq' _ _ _ => rw [hq] at hq'; simp at hq'

/-- C8, witness: runs of `up` and `down` on a ledger holding `a` and `b`. -/
theorem ledger_uniqueness_invariant_witness :
    sampleWorld.names.Nodup ∧ (up (okEnv abcFiles) sampleWorld).2.names.Nodup ∧
      (down (okEnv ["b_down.sql"]) sampleWorld).2.names.Nodup :=
  ⟨by decide,
    (ledger_uniqueness_invariant (okEnv abcFiles) sampleWorld (by decide)).2.2.2.2.2.2.2.1,
    (ledger_uniqueness_invariant (okEnv ["b_down.sql"]) sampleWorld
      (by decide)).2.2.2.2.2.2.2.2.1⟩

/-! ## Units -/

theorem upUnits_cons (f : String) (fs : List String) :
    upUnits (f :: fs) =
      if hasSuffix f upSuffix = true then trimSuffix f upSuffix :: upUnits fs
      else upUnits fs := by
  unfold upUnits
  by_cases h : hasSuffix f upSuffix = true <;> simp [List.filter_cons, h]

theorem downUnits_cons (f : String) (fs : List String) :
    downUnits (f :: fs) =
      if hasSuffix f downSuffix = true then trimSuffix f downSuffix :: downUnits fs
      else downUnits fs := by
  unfold downUnits
  by_cases h : hasSuffix f downSuffix = true <;> simp [List.filter_cons, h]

theorem mem_upUnits {n : String} {fs : List String} :
    n ∈ upUnits fs ↔ ∃ f ∈ fs, hasSuffix f upSuffix = true ∧ trimSuffix f upSuffix = n := by
  simp [upUnits, and_assoc]

theorem mem_downUnits {n : String} {fs : List String} :
    n ∈ downUnits fs ↔
      ∃ f ∈ fs, hasSuffix f downSuffix = true ∧ trimSuffix f downSuffix = n := by
  simp [downUnits, and_assoc]

theorem upUnits_nodup {fs : List String} (h : fs.Nodup) : (upUnits fs).Nodup := by
  unfold upUnits
  refine List.Nodup.map_on ?_ (h.filter _)
  intro x hx y hy hxy
  simp only [List.mem_filter] at hx hy
  exact trimSuffix_injOn hx.2 hy.2 hxy

theorem downUnits_nodup {fs : List String} (h : fs.Nodup) : (downUnits fs).Nodup := by
  unfold downUnits
  refine List.Nodup.map_on ?_ (h.filter _)
  intro x hx y hy hxy
  simp only [List.mem_filter] at hx hy
  exact trimSuffix_injOn hx.2 hy.2 hxy

theorem sortAsc_nodup {files : List String} (h : files.Nodup) : (sortAsc files).Nodup :=
  (sortAsc_perm files).nodup_iff.2 h

theorem sortDesc_nodup {files : List String} (h : files.Nodup) : (sortDesc files).Nodup :=
  (sortDesc_perm files).nodup_iff.2 h

/-! ## A completed stretch of the loop of `up` -/

theorem upFile_ok_rows {env : Env} {file : String} {w : World}
    (h : (upFile env file w).1 = none) :
    (hasSuffix file upSuffix = false ∧ (upFile env file w).2 = w) ∨
    (hasSuffix file upSuffix = true ∧ trimSuffix file upSuffix ∈ w.names ∧
      (upFile env file w).2.ledger = w.ledger ∧ (upFile env file w).2.lastId = w.lastId) ∨
    (hasSuffix file upSuffix = true ∧ trimSuffix file upSuffix ∉ w.names ∧
      (upFile env file w).2.ledger =
        some (w.rows ++ [⟨(w.lastId : Int) + 1, trimSuffix file upSuffix⟩]) ∧
      (upFile env file w).2.lastId = w.lastId + 1) := by
  have hstep := upFile_step env file w
  generalize upFile env file w = r at hstep h
  cases hstep with
  | other hs => exact Or.inl ⟨hs, rfl⟩
  | queryErr hs hq => simp at h
  | skipped id hs hq =>
    obtain ⟨_, _, e, he, _⟩ := queryScan_ok hq
    refine Or.inr (Or.inl ⟨hs, ?_, rfl, rfl⟩)
    have hmem := List.mem_of_find?_eq_some he
    have hname := List.find?_some he
    exact List.mem_map.2 ⟨e, hmem, by simpa using hname⟩
  | readErr hs hq hr => simp at h
  | execErr content hs hq hr hx => simp at h
  | recordErr content hs hq hr hx hi => simp at h
  | recorded content hs hq hr hx hi =>
    exact Or.inr (Or.inr ⟨hs, (queryScan_errNoRows hq).2.2, rfl, rfl⟩)

theorem upLoop_ok_rows {env : Env} {pre : List String} {w w2 : World}
    (h : upLoop env pre w = (none, w2)) (hnd : (upUnits pre).Nodup) :
    ∃ extra, w2.rows = w.rows ++ extra ∧
      extra.map Entry.name = (upUnits pre).filter (fun n => decide (n ∉ w.names)) := by
  induction pre generalizing w with
  | nil =>
    simp only [upLoop, Prod.mk.injEq, true_and] at h
    subst h
    exact ⟨[], by simp, by simp [upUnits]⟩
  | cons f fs ih =>
    obtain ⟨h1, h2⟩ := upLoop_cons_ok h
    rw [upUnits_cons] at hnd ⊢
    rcases upFile_ok_rows h1 with ⟨hs, hw⟩ | ⟨hs, hmem, hl, _⟩ | ⟨hs, hmem, hl, _⟩
    · rw [hw] at h2
      simp only [hs, Bool.false_eq_true, if_false] at hnd ⊢
      exact ih h2 hnd
    · simp only [hs, if_true] at hnd ⊢
      obtain ⟨extra, hrows, hnames⟩ := ih h2 (List.nodup_cons.1 hnd).2
      rw [rows_of_ledger_eq hl, names_of_ledger hl] at *
      refine ⟨extra, hrows, ?_⟩
      rw [hnames, List.filter_cons_of_neg (by simpa using hmem)]
    · simp only [hs, if_true] at hnd ⊢
      obtain ⟨hnotin, hnd'⟩ := List.nodup_cons.1 hnd
      obtain ⟨extra, hrows, hnames⟩ := ih h2 hnd'
      rw [rows_of_ledger hl] at hrows
      refine ⟨⟨(w.lastId : Int) + 1, trimSuffix f upSuffix⟩ :: extra, ?_, ?_⟩
      · rw [hrows]
        simp
      · rw [List.filter_cons_of_pos (by simpa using hmem), List.map_cons, hnames]
        congr 1
        apply List.filter_congr
        intro n hn
        have hne : n ≠ trimSuffix f upSuffix := fun hEq => hnotin (hEq ▸ hn)
        simp [World.names, rows_of_ledger hl, hne]

theorem upLoop_log (env : Env) (files : List String) (w : World) :
    ∃ d, (upLoop env files w).2.log = w.log ++ d ∧
      ∀ c ∈ d, ∃ f ∈ files, upCallOf env f c :=
  upLoop_invariant
    (fun w1 => ∃ d, w1.log = w.log ++ d ∧ ∀ c ∈ d, ∃ f ∈ files, upCallOf env f c) files
    (fun f hf w1 ⟨d, hd, hc⟩ => by
      obtain ⟨d1, hd1, hc1⟩ := upFile_out_log env f w1
      refine ⟨d ++ d1, by rw [hd1, hd, List.append_assoc], ?_⟩
      intro c hmem
      rcases List.mem_append.1 hmem with hm | hm
      · exact hc c hm
      · exact ⟨f, hf, hc1 c hm⟩)
    w ⟨[], by simp, by simp⟩

theorem downCallOf_mono {env : Env} {rows rows1 : List Entry} {f : String} {c : Call}
    (hsub : rows1.Sublist rows) (h : downCallOf env rows1 f c) : downCallOf env rows f c := by
  refine ⟨h.1, ?_⟩
  rcases h.2 with h | ⟨id, h, hm⟩ | h
  · exact Or.inl h
  · exact Or.inr (Or.inl ⟨id, h, hsub.subset hm⟩)
  · exact Or.inr (Or.inr h)

theorem downLoop_log (env : Env) (files : List String) (w : World) :
    ∃ d, (downLoop env files w).2.log = w.log ++ d ∧
      ∀ c ∈ d, ∃ f ∈ files, downCallOf env w.rows f c :=
  (downLoop_invariant
    (fun w1 => w1.rows.Sublist w.rows ∧
      ∃ d, w1.log = w.log ++ d ∧ ∀ c ∈ d, ∃ f ∈ files, downCallOf env w.rows f c) files
    (fun f hf w1 ⟨hsub, d, hd, hc⟩ => by
      obtain ⟨d1, hd1, hc1⟩ := downFile_out_log env f w1
      refine ⟨(downFile_rows_sublist env f w1).trans hsub, d ++ d1,
        by rw [hd1, hd, List.append_assoc], ?_⟩
      intro c hmem
      rcases List.mem_append.1 hmem with hm | hm
      · exact hc c hm
      · exact ⟨f, hf, downCallOf_mono hsub (hc1 c hm)⟩)
    w ⟨List.Sublist.refl _, [], by simp, by simp⟩).2

/-! ## A run that aborts inside the loop -/

theorem up_of_abort {env : Env} {w w1 w2 : World} {files pre post : List String}
    {b : String} {e : Fatal} (hopen : env.openOk = true)
    (hcheck : checkMigrationTable env w = (none, w1)) (hdir : env.readDir = some files)
    (hsplit : sortAsc files = pre ++ b :: post) (hpre : upLoop env pre w1 = (none, w2))
    (hb : (upFile env b w2).1 = some e) : up env w = (some e, (upFile env b w2).2) := by
  have hloop : upLoop env (sortAsc files) w1 = (some e, (upFile env b w2).2) := by
    rw [hsplit, upLoop_append_ok hpre, upLoop_cons_some hb]
    exact Prod.ext hb rfl
  simp only [up, hopen, if_true, hcheck, hdir, hloop]

theorem down_of_abort {env : Env} {w w1 w2 : World} {files pre post : List String}
    {b : String} {e : Fatal} (hopen : env.openOk = true)
    (hcheck : checkMigrationTable env w = (none, w1)) (hdir : env.readDir = some files)
    (hsplit : sortDesc files = pre ++ b :: post) (hpre : downLoop env pre w1 = (none, w2))
    (hb : (downFile env b w2).1 = some e) : down env w = (some e, (downFile env b w2).2) := by
  have hloop : downLoop env (sortDesc files) w1 = (some e, (downFile env b w2).2) := by
    rw [hsplit, downLoop_append_ok hpre, downLoop_cons_some hb]
    exact Prod.ext hb rfl
  simp only [down, hopen, if_true, hcheck, hdir, hloop]

theorem queryScan_eq {env : Env} {w : World} {n : String} {r : ScanResult}
    (h : (queryScan env w n).1 = r) : queryScan env w n = (r, w.logCall (.query n)) :=
  Prod.ext h (queryScan_snd env w n)

theorem upFile_readErr {env : Env} {b : String} {w : World}
    (hs : hasSuffix b upSuffix = true)
    (hq : (queryScan env w (trimSuffix b upSuffix)).1 = .errNoRows)
    (hr : env.readFile b = none) :
    upFile env b w = (some (.applyFailed b .readFile),
      (w.logCall (.query (trimSuffix b upSuffix))).print ("Applying migration: " ++ b)) := by
  simp only [upFile, hs, if_true, queryScan_eq hq, hr]

theorem upFile_execErr {env : Env} {b content : String} {w : World}
    (hs : hasSuffix b upSuffix = true)
    (hq : (queryScan env w (trimSuffix b upSuffix)).1 = .errNoRows)
    (hr : env.readFile b = some content)
    (hx : env.fault ((w.logCall (.query (trimSuffix b upSuffix))).print
      ("Applying migration: " ++ b)) (.exec content) = true) :
    upFile env b w = (some (.applyFailed b .exec),
      ((w.logCall (.query (trimSuffix b upSuffix))).print
        ("Applying migration: " ++ b)).logCall (.exec content)) := by
  simp only [upFile, hs, if_true, queryScan_eq hq, hr, execScript, hx, Bool.not_true]

theorem upFile_recordErr {env : Env} {b content : String} {w : World}
    (hs : hasSuffix b upSuffix = true)
    (hq : (queryScan env w (trimSuffix b upSuffix)).1 = .errNoRows)
    (hr : env.readFile b = some content)
    (hx : env.fault ((w.logCall (.query (trimSuffix b upSuffix))).print
      ("Applying migration: " ++ b)) (.exec content) = false)
    (hi : (execRecord env (((w.logCall (.query (trimSuffix b upSuffix))).print
      ("Applying migration: " ++ b)).logCall (.exec content))
        (trimSuffix b upSuffix)).1 = false) :
    upFile env b w = (some .recordFailed,
      (((w.logCall (.query (trimSuffix b upSuffix))).print
        ("Applying migration: " ++ b)).logCall (.exec content)).logCall
          (.record (trimSuffix b upSuffix))) := by
  have h2 := execRecord_false hi
  have he : execRecord env (((w.logCall (.query (trimSuffix b upSuffix))).print
      ("Applying migration: " ++ b)).logCall (.exec content)) (trimSuffix b upSuffix) =
      (false, (((w.logCall (.query (trimSuffix b upSuffix))).print
        ("Applying migration: " ++ b)).logCall (.exec content)).logCall
          (.record (trimSuffix b upSuffix))) := Prod.ext hi h2
  simp only [upFile, hs, if_true, queryScan_eq hq, hr, execScript, hx, Bool.not_false, he]

theorem up_abort_log {env : Env} {w w1 w2 : World} {pre : List String} {b : String}
    {tail : List Call} (hcheck : checkMigrationTable env w = (none, w1))
    (hpre : upLoop env pre w1 = (none, w2)) (htail : ∀ c ∈ tail, upCallOf env b c) :
    ∀ c ∈ w2.log ++ tail,
      c ∈ w.log ∨ c.isTableCall = true ∨ ∃ f ∈ pre ++ [b], upCallOf env f c := by
  obtain ⟨d0, hd0, hc0⟩ := (checkMigrationTable_frame env w).2.2.2.1
  obtain ⟨d1, hd1, hc1⟩ := upLoop_log env pre w1
  rw [hcheck] at hd0
  rw [hpre] at hd1
  simp only at hd0 hd1
  intro c hc
  rw [hd1, hd0] at hc
  simp only [List.mem_append] at hc
  rcases hc with ((hc | hc) | hc) | hc
  · exact Or.inl hc
  · exact Or.inr (Or.inl (hc0 c hc))
  · obtain ⟨f, hf, hcall⟩ := hc1 c hc
    exact Or.inr (Or.inr ⟨f, List.mem_append_left _ hf, hcall⟩)
  · exact Or.inr (Or.inr ⟨b, by simp, htail c hc⟩)

theorem up_prefix_rows {env : Env} {w w1 w2 : World} {files pre post : List String}
    {b : String} (hnodup : files.Nodup) (hcheck : checkMigrationTable env w = (none, w1))
    (hsplit : sortAsc files = pre ++ b :: post) (hpre : upLoop env pre w1 = (none, w2)) :
    ∃ extra, w2.rows = w.rows ++ extra ∧
      extra.map Entry.name = (upUnits pre).filter (fun n => decide (n ∉ w.names)) := by
  have hnd : pre.Nodup := by
    have := sortAsc_nodup hnodup
    rw [hsplit] at this
    exact (List.nodup_append.1 this).1
  have hrows : w1.rows = w.rows := by
    have := (checkMigrationTable_frame env w).1
    rwa [hcheck] at this
  have hnames : w1.names = w.names := by rw [World.names, hrows]; rfl
  obtain ⟨extra, h1, h2⟩ := upLoop_ok_rows hpre (upUnits_nodup hnd)
  exact ⟨extra, by rw [h1, hrows], by rw [h2, hnames]⟩

/-- C1: partial-failure containment of `up`. Let the sorted directory listing be
`pre ++ b :: post`, let the table check and the processing of `pre` complete without
failure, and let the forward script of the not-yet-applied unit `b` be rejected by the
store. Then the run ends with the failure "Failed to apply migration from file b", the
ledger is the ledger before the run followed by entries for exactly the units of `pre`
that were not in it, there is no entry for `b`, the trace ends with the query and the
script of `b`, and every call of the run belongs to the table check or to an entry of
`pre ++ [b]`: nothing after `b` is queried or executed. -/
theorem up_partial_failure (env : Env) (w w1 w2 : World) (files pre post : List String)
    (b content : String) (hopen : env.openOk = true) (hdir : env.readDir = some files)
    (hnodup : files.Nodup) (hcheck : checkMigrationTable env w = (none, w1))
    (hsplit : sortAsc files = pre ++ b :: post) (hpre : upLoop env pre w1 = (none, w2))
    (hs : hasSuffix b upSuffix = true)
    (hq : (queryScan env w2 (trimSuffix b upSuffix)).1 = .errNoRows)
    (hr : env.readFile b = some content)
    (hx : env.fault ((w2.logCall (.query (trimSuffix b upSuffix))).print
      ("Applying migration: " ++ b)) (.exec content) = true) :
    (up env w).1 = some (.applyFailed b .exec) ∧
    (∃ extra, (up env w).2.rows = w.rows ++ extra ∧
      extra.map Entry.name = (upUnits pre).filter (fun n => decide (n ∉ w.names))) ∧
    trimSuffix b upSuffix ∉ (up env w).2.names ∧
    (up env w).2.log = w2.log ++ [.query (trimSuffix b upSuffix), .exec content] ∧
    (∀ c ∈ (up env w).2.log,
      c ∈ w.log ∨ c.isTableCall = true ∨ ∃ f ∈ pre ++ [b], upCallOf env f c) := by
  have hb := upFile_execErr hs hq hr hx
  have hup : up env w = (some (.applyFailed b .exec),
      ((w2.logCall (.query (trimSuffix b upSuffix))).print
        ("Applying migration: " ++ b)).logCall (.exec content)) := by
    have := up_of_abort hopen hcheck hdir hsplit hpre (by rw [hb])
    rw [hb] at this
    exact this
  have hlog : (up env w).2.log =
      w2.log ++ [.query (trimSuffix b upSuffix), .exec content] := by
    rw [hup]
    simp
  refine ⟨by rw [hup], ?_, ?_, hlog, ?_⟩
  · obtain ⟨extra, h1, h2⟩ := up_prefix_rows hnodup hcheck hsplit hpre
    exact ⟨extra, by rw [hup]; exact h1, h2⟩
  · rw [hup]
    exact (queryScan_errNoRows hq).2.2
  · rw [hlog]
    exact up_abort_log hcheck hpre (by simp [upCallOf, hs, hr])


/-- C1, witness: forward scripts `a`, `b`, `c` on a store without ledger, the store rejecting
the script of `b`: the run fails at `b`, the ledger holds `a` only and nothing of `c` is
queried or executed. -/
theorem up_partial_failure_witness :
    (up (rejectEnv abcFiles (.exec "b_up.sql")) freshWorld).1 =
        some (.applyFailed "b_up.sql" .exec) ∧
      (up (rejectEnv abcFiles (.exec "b_up.sql")) freshWorld).2.names = ["a"] ∧
      Call.query "c" ∉ (up (rejectEnv abcFiles (.exec "b_up.sql")) freshWorld).2.log ∧
      Call.exec "c_up.sql" ∉ (up (rejectEnv abcFiles (.exec "b_up.sql")) freshWorld).2.log :=
  ⟨(up_partial_failure (rejectEnv abcFiles (.exec "b_up.sql")) freshWorld
      (checkMigrationTable (rejectEnv abcFiles (.exec "b_up.sql")) freshWorld).2
      (upLoop (rejectEnv abcFiles (.exec "b_up.sql")) ["a_up.sql"]
        (checkMigrationTable (rejectEnv abcFiles (.exec "b_up.sql")) freshWorld).2).2
      abcFiles ["a_up.sql"] ["c_up.sql"] "b_up.sql" "b_up.sql"
      rfl rfl (by decide) (by decide) (by decide) (by decide) (by decide) (by decide) rfl
      (by decide)).1,
    by decide, by decide, by decide⟩


theorem message_recordFailed_ne_applyFailed (file : String) (cause : Cause) :
    Fatal.message .recordFailed ≠ Fatal.message (.applyFailed file cause) := by
  intro h
  have h2 := congrArg (fun s : String => s.data.take 11) h
  simp [Fatal.message] at h2

/-- C7: ledger-hazard detection in `up`. Let the sorted directory listing be
`pre ++ b :: post`, let the table check and the processing of `pre` complete without
failure, let the forward script of the not-yet-applied unit `b` be accepted by the store
and let the ledger insert that follows fail. Then the run ends with the failure "Failed
to insert migration record into migrations table", whose outcome and message differ from
those of a rejected script ("Failed to apply migration from file"); the ledger is the one
left by `pre` and has no entry for `b`; the calls made for `b` are its query, its script
once, and the insert; and every call of the run belongs to the table check or to an
entry of `pre ++ [b]`: no later unit is processed. -/
theorem up_ledger_hazard (env : Env) (w w1 w2 : World) (files pre post : List String)
    (b content : String) (hopen : env.openOk = true) (hdir : env.readDir = some files)
    (hcheck : checkMigrationTable env w = (none, w1))
    (hsplit : sortAsc files = pre ++ b :: post) (hpre : upLoop env pre w1 = (none, w2))
    (hs : hasSuffix b upSuffix = true)
    (hq : (queryScan env w2 (trimSuffix b upSuffix)).1 = .errNoRows)
    (hr : env.readFile b = some content)
    (hx : env.fault ((w2.logCall (.query (trimSuffix b upSuffix))).print
      ("Applying migration: " ++ b)) (.exec content) = false)
    (hi : (execRecord env (((w2.logCall (.query (trimSuffix b upSuffix))).print
      ("Applying migration: " ++ b)).logCall (.exec content))
        (trimSuffix b upSuffix)).1 = false) :
    (up env w).1 = some .recordFailed ∧
    (∀ cause, Fatal.recordFailed ≠ Fatal.applyFailed b cause ∧
      Fatal.message .recordFailed ≠ Fatal.message (.applyFailed b cause)) ∧
    (up env w).2.ledger = w2.ledger ∧
    trimSuffix b upSuffix ∉ (up env w).2.names ∧
    (up env w).2.log = w2.log ++
      [.query (trimSuffix b upSuffix), .exec content, .record (trimSuffix b upSuffix)] ∧
    (∀ c ∈ (up env w).2.log,
      c ∈ w.log ∨ c.isTableCall = true ∨ ∃ f ∈ pre ++ [b], upCallOf env f c) := by
  have hb := upFile_recordErr hs hq hr hx hi
  have hup : up env w = (some .recordFailed,
      (((w2.logCall (.query (trimSuffix b upSuffix))).print
        ("Applying migration: " ++ b)).logCall (.exec content)).logCall
          (.record (trimSuffix b upSuffix))) := by
    have := up_of_abort hopen hcheck hdir hsplit hpre (by rw [hb])
    rw [hb] at this
    exact this
  have hlog : (up env w).2.log = w2.log ++
      [.query (trimSuffix b upSuffix), .exec content, .record (trimSuffix b upSuffix)] := by
    rw [hup]
    simp
  refine ⟨by rw [hup], ?_, by rw [hup]; rfl, ?_, hlog, ?_⟩
  · intro cause
    exact ⟨by simp, message_recordFailed_ne_applyFailed b cause⟩
  · rw [hup]
    exact (queryScan_errNoRows hq).2.2
  · rw [hlog]
    exact up_abort_log hcheck hpre (by simp [upCallOf, hs, hr])

/-- C7, witness: forward scripts `a`, `b`, `c` on a store without ledger, the store rejecting
the ledger insert for `b`: the run fails at `b` after executing its script once, the
ledger holds `a` only and `c` is not processed. -/
theorem up_ledger_hazard_witness :
    (up (rejectEnv abcFiles (.record "b")) freshWorld).1 = some .recordFailed ∧
      (up (rejectEnv abcFiles (.record "b")) freshWorld).2.names = ["a"] ∧
      (up (rejectEnv abcFiles (.record "b")) freshWorld).2.log =
        [.probe, .rowsAffected, .createTable, .query "a", .exec "a_up.sql", .record "a",
          .query "b", .exec "b_up.sql", .record "b"] :=
  ⟨(up_ledger_hazard (rejectEnv abcFiles (.record "b")) freshWorld
      (checkMigrationTable (rejectEnv abcFiles (.record "b")) freshWorld).2
      (upLoop (rejectEnv abcFiles (.record "b")) ["a_up.sql"]
        (checkMigrationTable (rejectEnv abcFiles (.record "b")) freshWorld).2).2
      abcFiles ["a_up.sql"] ["c_up.sql"] "b_up.sql" "b_up.sql"
      rfl rfl (by decide) (by decide) (by decide) (by decide) (by decide) rfl
      (by decide) (by decide)).1,
    by decide, by decide⟩


/-! ## Discovery failures -/

theorem downFile_readErr {env : Env} {b : String} {w : World} {id : Int}
    (hs : hasSuffix b downSuffix = true)
    (hq : (queryScan env w (trimSuffix b downSuffix)).1 = .ok id) (hid : 0 < id)
    (hr : env.readFile b = none) :
    downFile env b w = (some (.applyFailed b .readFile),
      (w.logCall (.query (trimSuffix b downSuffix))).print ("Resetting migration: " ++ b)) := by
  simp only [downFile, hs, if_true, queryScan_eq hq, hid, hr]

theorem up_readDir_none {env : Env} (w : World) (hdir : env.readDir = none) :
    (up env w).1 ≠ none ∧ (up env w).2.rows = w.rows ∧ (up env w).2.out = w.out ∧
      ∃ d, (up env w).2.log = w.log ++ d ∧ ∀ c ∈ d, c.isTableCall = true := by
  obtain ⟨hrows, _, hout, hlog, _⟩ := checkMigrationTable_frame env w
  unfold up
  split
  · rcases hc : checkMigrationTable env w with ⟨o, w1⟩
    rw [hc] at hrows hout hlog
    cases o with
    | some e => exact ⟨by simp, hrows, hout, hlog⟩
    | none =>
      simp only [hdir]
      exact ⟨by simp, hrows, hout, hlog⟩
  · exact ⟨by simp, rfl, rfl, [], by simp, by simp⟩

theorem down_readDir_none {env : Env} (w : World) (hdir : env.readDir = none) :
    (down env w).1 ≠ none ∧ (down env w).2.rows = w.rows ∧ (down env w).2.out = w.out ∧
      ∃ d, (down env w).2.log = w.log ++ d ∧ ∀ c ∈ d, c.isTableCall = true := by
  obtain ⟨hrows, _, hout, hlog, _⟩ := checkMigrationTable_frame env w
  unfold down
  split
  · rcases hc : checkMigrationTable env w with ⟨o, w1⟩
    rw [hc] at hrows hout hlog
    cases o with
    | some e => exact ⟨by simp, hrows, hout, hlog⟩
    | none =>
      simp only [hdir]
      exact ⟨by simp, hrows, hout, hlog⟩
  · exact ⟨by simp, rfl, rfl, [], by simp, by simp⟩

theorem upFile_applied_noRead {env : Env} {file : String} {w : World} {id : Int}
    (hs : hasSuffix file upSuffix = true)
    (hq : (queryScan env w (trimSuffix file upSuffix)).1 = .ok id) :
    upFile env file w = (none, w.logCall (.query (trimSuffix file upSuffix))) := by
  simp only [upFile, hs, if_true, queryScan_eq hq]

theorem downFile_notApplied_noRead {env : Env} {file : String} {w : World}
    (hs : hasSuffix file downSuffix = true)
    (hq : (queryScan env w (trimSuffix file downSuffix)).1 = .errNoRows ∨
      ∃ id, (queryScan env w (trimSuffix file downSuffix)).1 = .ok id ∧ ¬ 0 < id) :
    downFile env file w = (none, w.logCall (.query (trimSuffix file downSuffix))) := by
  rcases hq with hq | ⟨id, hq, hid⟩
  · simp only [downFile, hs, if_true, queryScan_eq hq]
  · simp only [downFile, hs, if_true, queryScan_eq hq, if_neg hid]

/-- C6 (as amended): discovery failures. (1) When the directory cannot be listed, `up`
and `down` fail having made only calls of the table check: no script is executed, the
ledger rows and the output are as before. (2) A script file is read only inside the loop,
for a unit that needs processing. For `up`: let the connection open, the sorted listing
be `pre ++ b :: post`, the table check and the processing of `pre` complete without
failure, and the ledger query of the `_up.sql` entry `b` report no entry; if the file of
`b` cannot be read, the run ends with "Failed to apply migration from file b" in the
world the units of `pre` left, to which only the ledger query of `b` and the line
"Applying migration: b" are added: the script of `b` is not executed, the ledger is not
changed for it, no entry of `post` is processed, and what `pre` did stays done. (3) For
`down` the same holds with the listing sorted in descending order, a `_down.sql` entry
`b` whose ledger query finds an entry with a positive id, and the line "Resetting
migration: b". (4) A script file that is not needed is never read, so that it cannot be
read causes no failure: when the ledger query of an `_up.sql` entry finds an entry, all
the loop body of `up` does is that query; (5) when the ledger query of a `_down.sql`
entry finds no entry, or one whose id is not positive, all the loop body of `down` does
is that query. -/
theorem discovery_failure (env : Env) (w : World) :
    (env.readDir = none →
      ((up env w).1 ≠ none ∧ (up env w).2.rows = w.rows ∧ (up env w).2.out = w.out ∧
        ∃ d, (up env w).2.log = w.log ++ d ∧ ∀ c ∈ d, c.isTableCall = true) ∧
      ((down env w).1 ≠ none ∧ (down env w).2.rows = w.rows ∧ (down env w).2.out = w.out ∧
        ∃ d, (down env w).2.log = w.log ++ d ∧ ∀ c ∈ d, c.isTableCall = true)) ∧
    (∀ (w1 w2 : World) (files pre post : List String) (b : String),
      env.openOk = true → env.readDir = some files →
      checkMigrationTable env w = (none, w1) → sortAsc files = pre ++ b :: post →
      upLoop env pre w1 = (none, w2) → hasSuffix b upSuffix = true →
      (queryScan env w2 (trimSuffix b upSuffix)).1 = .errNoRows → env.readFile b = none →
      up env w = (some (.applyFailed b .readFile),
        (w2.logCall (.query (trimSuffix b upSuffix))).print ("Applying migration: " ++ b))) ∧
    (∀ (w1 w2 : World) (files pre post : List String) (b : String) (id : Int),
      env.openOk = true → env.readDir = some files →
      checkMigrationTable env w = (none, w1) → sortDesc files = pre ++ b :: post →
      downLoop env pre w1 = (none, w2) → hasSuffix b downSuffix = true →
      (queryScan env w2 (trimSuffix b downSuffix)).1 = .ok id → 0 < id →
      env.readFile b = none →
      down env w = (some (.applyFailed b .readFile),
        (w2.logCall (.query (trimSuffix b downSuffix))).print
          ("Resetting migration: " ++ b))) ∧
    (∀ (w2 : World) (b : String) (id : Int), hasSuffix b upSuffix = true →
      (queryScan env w2 (trimSuffix b upSuffix)).1 = .ok id →
      upFile env b w2 = (none, w2.logCall (.query (trimSuffix b upSuffix)))) ∧
    (∀ (w2 : World) (b : String), hasSuffix b downSuffix = true →
      ((queryScan env w2 (trimSuffix b downSuffix)).1 = .errNoRows ∨
        ∃ id, (queryScan env w2 (trimSuffix b downSuffix)).1 = .ok id ∧ ¬ 0 < id) →
      downFile env b w2 = (none, w2.logCall (.query (trimSuffix b downSuffix)))) := by
  refine ⟨fun hdir => ⟨up_readDir_none w hdir, down_readDir_none w hdir⟩, ?_, ?_,
    fun _ _ _ hs hq => upFile_applied_noRead hs hq,
    fun _ _ hs hq => downFile_notApplied_noRead hs hq⟩
  · intro w1 w2 files pre post b hopen hdir hcheck hsplit hpre hs hq hr
    have hb := upFile_readErr hs hq hr
    have := up_of_abort hopen hcheck hdir hsplit hpre (by rw [hb])
    rw [hb] at this
    exact this
  · intro w1 w2 files pre post b id hopen hdir hcheck hsplit hpre hs hq hid hr
    have hb := downFile_readErr hs hq hid hr
    have := down_of_abort hopen hcheck hdir hsplit hpre (by rw [hb])
    rw [hb] at this
    exact this

/-- C6, witness: forward scripts `a`, `b`, `c` with `b_up.sql` unreadable on a store
without ledger: `up` has applied `a` and stops at `b` after its ledger query. With
`a_up.sql` unreadable and `a` already in the ledger, `up` does not read it and
completes. -/
theorem discovery_failure_witness :
    up (unreadableEnv abcFiles "b_up.sql") freshWorld =
        (some (.applyFailed "b_up.sql" .readFile),
          { ledger := some [⟨1, "a"⟩], lastId := 1,
            log := [.probe, .rowsAffected, .createTable, .query "a", .exec "a_up.sql",
              .record "a", .query "b"],
            out := ["Applying migration: a_up.sql", "Applying migration: b_up.sql"] }) ∧
      upFile (unreadableEnv abcFiles "a_up.sql") "a_up.sql" sampleWorld =
        (none, sampleWorld.logCall (.query "a")) ∧
      (up (unreadableEnv abcFiles "a_up.sql") sampleWorld).1 = none :=
  ⟨(discovery_failure (unreadableEnv abcFiles "b_up.sql") freshWorld).2.1
      (checkMigrationTable (unreadableEnv abcFiles "b_up.sql") freshWorld).2
      (upLoop (unreadableEnv abcFiles "b_up.sql") ["a_up.sql"]
        (checkMigrationTable (unreadableEnv abcFiles "b_up.sql") freshWorld).2).2
      abcFiles ["a_up.sql"] ["c_up.sql"] "b_up.sql"
      rfl rfl (by decide) (by decide) (by decide) (by decide) (by decide) (by decide),
    (discovery_failure (unreadableEnv abcFiles "a_up.sql") sampleWorld).2.2.2.1
      sampleWorld "a_up.sql" 1 (by decide) (by decide),
    by decide⟩

/-- C6, counterexample: with `a_up.sql` readable and `b_up.sql` unreadable, `up` fails
because the script file of `b` cannot be read, yet the script of `a` has been executed
and a ledger entry for `a` has been inserted during that run. -/
theorem discovery_failure_counterexample :
    (up (unreadableEnv ["a_up.sql", "b_up.sql"] "b_up.sql") freshWorld).1 =
        some (.applyFailed "b_up.sql" .readFile) ∧
      Call.exec "a_up.sql" ∈
        (up (unreadableEnv ["a_up.sql", "b_up.sql"] "b_up.sql") freshWorld).2.log ∧
      Call.record "a" ∈
        (up (unreadableEnv ["a_up.sql", "b_up.sql"] "b_up.sql") freshWorld).2.log ∧
      (up (unreadableEnv ["a_up.sql", "b_up.sql"] "b_up.sql") freshWorld).2.rows =
        [⟨1, "a"⟩] ∧ freshWorld.rows = [] := by
  decide


/-! ## The table check inside a run -/

theorem upCallOf_not_tableCall {env : Env} {f : String} {c : Call} (h : upCallOf env f c) :
    c.isTableCall = false := by
  rcases h.2 with h | h | ⟨_, _, h⟩ <;> subst h <;> rfl

theorem downCallOf_not_tableCall {env : Env} {rows : List Entry} {f : String} {c : Call}
    (h : downCallOf env rows f c) : c.isTableCall = false := by
  rcases h.2 with h | ⟨_, h, _⟩ | ⟨_, _, h⟩ <;> subst h <;> rfl

theorem upFile_isSome (env : Env) (f : String) (w : World) (h : w.ledger.isSome = true) :
    (upFile env f w).2.ledger.isSome = true := by
  rcases upFile_ledger env f w with ⟨hl, _⟩ | ⟨_, _, _, _, hl, _⟩
  · rw [hl]; exact h
  · rw [hl]; rfl

theorem downFile_isSome (env : Env) (f : String) (w : World) (h : w.ledger.isSome = true) :
    (downFile env f w).2.ledger.isSome = true := by
  rcases (downFile_ledger env f w).2 with hl | ⟨_, _, _, _, _, _, hl⟩
  · rw [hl]; exact h
  · rw [hl]; rfl

theorem upFile_outcome {env : Env} {f : String} {w : World} {e : Fatal}
    (h : (upFile env f w).1 = some e) :
    e = .queryFailed ∨ e = .recordFailed ∨ ∃ cause, e = .applyFailed f cause := by
  have hstep := upFile_step env f w
  generalize upFile env f w = r at hstep h
  cases hstep <;> simp at h <;> subst h <;> simp

theorem upLoop_outcome {env : Env} {files : List String} {w : World} {e : Fatal}
    (h : (upLoop env files w).1 = some e) :
    e = .queryFailed ∨ e = .recordFailed ∨ ∃ f ∈ files, ∃ cause, e = .applyFailed f cause := by
  induction files generalizing w with
  | nil => simp [upLoop] at h
  | cons f fs ih =>
    cases ho : (upFile env f w).1 with
    | none =>
      rw [upLoop_cons_none ho] at h
      rcases ih h with h1 | h1 | ⟨g, hg, h1⟩
      · exact Or.inl h1
      · exact Or.inr (Or.inl h1)
      · exact Or.inr (Or.inr ⟨g, List.mem_cons_of_mem _ hg, h1⟩)
    | some e1 =>
      rw [upLoop_cons_some ho, ho] at h
      simp only [Option.some.injEq] at h
      subst h
      rcases upFile_outcome ho with h1 | h1 | h1
      · exact Or.inl h1
      · exact Or.inr (Or.inl h1)
      · exact Or.inr (Or.inr ⟨f, List.mem_cons_self _ _, h1⟩)

theorem up_after_check {env : Env} {w w1 : World} (hopen : env.openOk = true)
    (hcheck : checkMigrationTable env w = (none, w1)) :
    (∃ d, (up env w).2.log = w1.log ++ d ∧ ∀ c ∈ d, c.isTableCall = false) ∧
      (up env w).2.ledger.isSome = true ∧ ∀ e, (up env w).1 ≠ some (.checkTable e) := by
  have hsome : w1.ledger.isSome = true := by
    have := (checkMigrationTable_frame env w).2.2.2.2
    rw [hcheck] at this
    exact this rfl
  simp only [up, hopen, if_true, hcheck]
  cases hd : env.readDir with
  | none => exact ⟨⟨[], by simp, by simp⟩, hsome, by simp⟩
  | some files =>
    simp only
    obtain ⟨d, hd1, hd2⟩ := upLoop_log env (sortAsc files) w1
    have hs2 := upLoop_invariant (fun w => w.ledger.isSome = true) (sortAsc files)
      (fun f _ w hw => upFile_isSome env f w hw) w1 hsome
    have hcalls : ∀ c ∈ d, c.isTableCall = false := fun c hc => by
      obtain ⟨f, _, hf⟩ := hd2 c hc
      exact upCallOf_not_tableCall hf
    have hout : ∀ e, (upLoop env (sortAsc files) w1).1 = some e →
        e = .queryFailed ∨ e = .recordFailed ∨
          ∃ f ∈ sortAsc files, ∃ cause, e = .applyFailed f cause :=
      fun e h => upLoop_outcome h
    rcases hl : upLoop env (sortAsc files) w1 with ⟨o, w2⟩
    rw [hl] at hd1 hs2 hout
    cases o with
    | none => exact ⟨⟨d, hd1, hcalls⟩, hs2, by simp⟩
    | some e =>
      refine ⟨⟨d, hd1, hcalls⟩, hs2, ?_⟩
      intro e' he'
      simp only [Option.some.injEq] at he'
      subst he'
      rcases hout _ rfl with h | h | ⟨_, _, _, h⟩ <;> simp at h


/-- C10 (as amended): auto-creation of the ledger table, with the probe modelled as
reporting zero affected rows exactly when the table is absent. If the probe fails, or its
affected-row count cannot be read, `checkMigrationTable` returns an error and issues no
create-table statement. If the table is present it issues no create-table statement and
returns success. If the table is absent it issues the create-table statement exactly
once; it returns success, with the table created empty, when that statement succeeds, and
the error "Failed to create migration table", with the table still absent, when it fails.
Hence a run of `up` on a store without the table whose check succeeds creates the table
before any ledger query, and a following run of `up` whose probe succeeds issues no
create-table statement and reports no error from the table check. -/
theorem checkMigrationTable_idempotent (env : Env) (w : World) :
    (env.fault w .probe = true →
      checkMigrationTable env w = (some .probeFailed, w.logCall .probe)) ∧
    (env.fault w .probe = false → env.fault (w.logCall .probe) .rowsAffected = true →
      checkMigrationTable env w =
        (some .rowsAffectedFailed, (w.logCall .probe).logCall .rowsAffected)) ∧
    (env.fault w .probe = false → env.fault (w.logCall .probe) .rowsAffected = false →
      w.ledger.isSome = true →
      checkMigrationTable env w = (none, (w.logCall .probe).logCall .rowsAffected)) ∧
    (env.fault w .probe = false → env.fault (w.logCall .probe) .rowsAffected = false →
      w.ledger = none →
      (checkMigrationTable env w).2.log = w.log ++ [.probe, .rowsAffected, .createTable] ∧
      (env.fault ((w.logCall .probe).logCall .rowsAffected) .createTable = false →
        (checkMigrationTable env w).1 = none ∧
        (checkMigrationTable env w).2.ledger = some []) ∧
      (env.fault ((w.logCall .probe).logCall .rowsAffected) .createTable = true →
        (checkMigrationTable env w).1 = some .createFailed ∧
        (checkMigrationTable env w).2.ledger = none)) ∧
    (env.openOk = true → env.fault w .probe = false →
      env.fault (w.logCall .probe) .rowsAffected = false → w.ledger = none →
      env.fault ((w.logCall .probe).logCall .rowsAffected) .createTable = false →
      (∃ d, (up env w).2.log = w.log ++ [.probe, .rowsAffected, .createTable] ++ d ∧
        ∀ c ∈ d, c.isTableCall = false) ∧
      (∀ e, (up env w).1 ≠ some (.checkTable e)) ∧
      ∀ env2 : Env, env2.openOk = true → env2.fault (up env w).2 .probe = false →
        env2.fault ((up env w).2.logCall .probe) .rowsAffected = false →
        (∃ d, (up env2 (up env w).2).2.log = (up env w).2.log ++ [.probe, .rowsAffected] ++ d ∧
          ∀ c ∈ d, c.isTableCall = false) ∧
        ∀ e, (up env2 (up env w).2).1 ≠ some (.checkTable e)) := by
  have key : ∀ (env : Env) (w : World), env.fault w .probe = false →
      env.fault (w.logCall .probe) .rowsAffected = false → w.ledger.isSome = true →
      checkMigrationTable env w = (none, (w.logCall .probe).logCall .rowsAffected) := by
    intro env w hp hr hl
    have h := checkMigrationTable_step env w
    generalize checkMigrationTable env w = r at h
    cases h with
    | probeErr hp' => rw [hp] at hp'; simp at hp'
    | rowsErr _ hr' => rw [hr] at hr'; simp at hr'
    | present _ _ _ => rfl
    | createErr _ _ hl' _ => rw [hl'] at hl; simp at hl
    | created _ _ hl' _ => rw [hl'] at hl; simp at hl
  have hstep := checkMigrationTable_step env w
  refine ⟨?_, ?_, key env w, ?_, ?_⟩
  · intro hp
    generalize checkMigrationTable env w = r at hstep
    cases hstep with
    | probeErr _ => rfl
    | rowsErr hp' _ => rw [hp] at hp'; simp at hp'
    | present hp' _ _ => rw [hp] at hp'; simp at hp'
    | createErr hp' _ _ _ => rw [hp] at hp'; simp at hp'
    | created hp' _ _ _ => rw [hp] at hp'; simp at hp'
  · intro hp hr
    generalize checkMigrationTable env w = r at hstep
    cases hstep with
    | probeErr hp' => rw [hp] at hp'; simp at hp'
    | rowsErr _ _ => rfl
    | present _ hr' _ => rw [hr] at hr'; simp at hr'
    | createErr _ hr' _ _ => rw [hr] at hr'; simp at hr'
    | created _ hr' _ _ => rw [hr] at hr'; simp at hr'
  · intro hp hr hl
    generalize checkMigrationTable env w = r at hstep
    cases hstep with
    | probeErr hp' => rw [hp] at hp'; simp at hp'
    | rowsErr _ hr' => rw [hr] at hr'; simp at hr'
    | present _ _ hl' => rw [hl] at hl'; simp at hl'
    | createErr _ _ _ hc =>
      exact ⟨by simp, fun hc' => by rw [hc] at hc'; simp at hc', fun _ => ⟨rfl, hl⟩⟩
    | created _ _ _ hc =>
      exact ⟨rfl, fun _ => ⟨rfl, rfl⟩, fun hc' => by rw [hc] at hc'; simp at hc'⟩
  · intro hopen hp hr hl hc
    have hcheck : checkMigrationTable env w = (none,
        { ledger := some [], lastId := w.lastId,
          log := w.log ++ [.probe, .rowsAffected, .createTable], out := w.out }) := by
      generalize checkMigrationTable env w = r at hstep
      cases hstep with
      | probeErr hp' => rw [hp] at hp'; simp at hp'
      | rowsErr _ hr' => rw [hr] at hr'; simp at hr'
      | present _ _ hl' => rw [hl] at hl'; simp at hl'
      | createErr _ _ _ hc' => rw [hc] at hc'; simp at hc'
      | created _ _ _ _ => rfl
    obtain ⟨hlog, hsome, hne⟩ := up_after_check hopen hcheck
    refine ⟨hlog, hne, ?_⟩
    intro env2 hopen2 hp2 hr2
    obtain ⟨⟨d, hd, hcalls⟩, _, hne2⟩ := up_after_check hopen2 (key env2 _ hp2 hr2 hsome)
    exact ⟨⟨d, by rw [hd]; simp, hcalls⟩, hne2⟩

/-- C10, witness: two runs of `up` on a store without ledger: the first creates the table
before its first query, the second starts with the probe and its count only. -/
theorem checkMigrationTable_idempotent_witness :
    (up (okEnv abcFiles) freshWorld).2.log =
        [.probe, .rowsAffected, .createTable, .query "a", .exec "a_up.sql", .record "a",
          .query "b", .exec "b_up.sql", .record "b", .query "c", .exec "c_up.sql",
          .record "c"] ∧
      ∃ d, (up (okEnv abcFiles) (up (okEnv abcFiles) freshWorld).2).2.log =
          (up (okEnv abcFiles) freshWorld).2.log ++ [.probe, .rowsAffected] ++ d ∧
        ∀ c ∈ d, c.isTableCall = false :=
  ⟨by decide,
    (((checkMigrationTable_idempotent (okEnv abcFiles) freshWorld).2.2.2.2
      rfl rfl rfl rfl rfl).2.2 (okEnv abcFiles) rfl rfl rfl).1⟩

/-- C10, counterexample: on a store without the table whose probe succeeds and which
rejects the create-table statement, `checkMigrationTable` issues that statement once and
returns the error "Failed to create migration table", not success. -/
theorem checkMigrationTable_counterexample :
    freshWorld.ledger = none ∧
      checkMigrationTable (rejectEnv [] .createTable) freshWorld =
        (some .createFailed,
          { ledger := none, lastId := 0, log := [.probe, .rowsAffected, .createTable],
            out := [] }) := by
  decide


/-! ## Idempotence of `up` -/

theorem up_ok_inv {env : Env} {w w1 : World} (h : up env w = (none, w1)) :
    env.openOk = true ∧ ∃ wc files w2, checkMigrationTable env w = (none, wc) ∧
      env.readDir = some files ∧ upLoop env (sortAsc files) wc = (none, w2) ∧
      w1 = w2.print "Finished applying migrations ✅" := by
  unfold up at h
  split at h
  · rename_i hopen
    refine ⟨hopen, ?_⟩
    rcases hc : checkMigrationTable env w with ⟨o, wc⟩
    rw [hc] at h
    cases o with
    | some e => simp at h
    | none =>
      simp only at h
      cases hd : env.readDir with
      | none => rw [hd] at h; simp at h
      | some files =>
        rw [hd] at h
        simp only at h
        rcases hl : upLoop env (sortAsc files) wc with ⟨o2, w2⟩
        rw [hl] at h
        cases o2 with
        | some e => simp at h
        | none =>
          simp only [Prod.mk.injEq, true_and] at h
          exact ⟨wc, files, w2, rfl, rfl, hl, h.symm⟩
  · simp at h

theorem down_ok_inv {env : Env} {w w1 : World} (h : down env w = (none, w1)) :
    env.openOk = true ∧ ∃ wc files w2, checkMigrationTable env w = (none, wc) ∧
      env.readDir = some files ∧ downLoop env (sortDesc files) wc = (none, w2) ∧
      w1 = w2.print "Finished rolling back migrations ✅" := by
  unfold down at h
  split at h
  · rename_i hopen
    refine ⟨hopen, ?_⟩
    rcases hc : checkMigrationTable env w with ⟨o, wc⟩
    rw [hc] at h
    cases o with
    | some e => simp at h
    | none =>
      simp only at h
      cases hd : env.readDir with
      | none => rw [hd] at h; simp at h
      | some files =>
        rw [hd] at h
        simp only at h
        rcases hl : downLoop env (sortDesc files) wc with ⟨o2, w2⟩
        rw [hl] at h
        cases o2 with
        | some e => simp at h
        | none =>
          simp only [Prod.mk.injEq, true_and] at h
          exact ⟨wc, files, w2, rfl, rfl, hl, h.symm⟩
  · simp at h

theorem upFile_names_mono (env : Env) (f : String) (w : World) :
    ∀ n ∈ w.names, n ∈ (upFile env f w).2.names := by
  intro n hn
  rcases upFile_ledger env f w with ⟨hl, _⟩ | ⟨_, _, _, _, hl, _⟩
  · rw [names_of_ledger hl]; exact hn
  · rw [World.names, rows_of_ledger hl, List.map_append]
    exact List.mem_append_left _ hn

theorem upLoop_names_mono (env : Env) (files : List String) (w : World) :
    ∀ n ∈ w.names, n ∈ (upLoop env files w).2.names :=
  upLoop_invariant (fun w1 => ∀ n ∈ w.names, n ∈ w1.names) files
    (fun f _ w1 hw n hn => upFile_names_mono env f w1 n (hw n hn)) w (fun _ hn => hn)

theorem upLoop_ok_all_applied {env : Env} {files : List String} {w w2 : World}
    (h : upLoop env files w = (none, w2)) : ∀ n ∈ upUnits files, n ∈ w2.names := by
  induction files generalizing w with
  | nil => simp [upUnits]
  | cons f fs ih =>
    obtain ⟨h1, h2⟩ := upLoop_cons_ok h
    intro n hn
    rw [upUnits_cons] at hn
    have hmono := upLoop_names_mono env fs (upFile env f w).2
    rw [h2] at hmono
    rcases upFile_ok_rows h1 with ⟨hs, _⟩ | ⟨hs, hmem, hl, _⟩ | ⟨hs, _, hl, _⟩
    · simp only [hs, Bool.false_eq_true, if_false] at hn
      exact ih h2 n hn
    · simp only [hs, if_true, List.mem_cons] at hn
      rcases hn with hn | hn
      · subst hn
        exact hmono _ (by rw [names_of_ledger hl]; exact hmem)
      · exact ih h2 n hn
    · simp only [hs, if_true, List.mem_cons] at hn
      rcases hn with hn | hn
      · subst hn
        exact hmono _ (by simp [World.names, rows_of_ledger hl])
      · exact ih h2 n hn

theorem mem_upUnits_sortAsc {n : String} {files : List String} :
    n ∈ upUnits (sortAsc files) ↔ n ∈ upUnits files := by
  simp only [mem_upUnits, (sortAsc_perm files).mem_iff]

theorem mem_downUnits_sortDesc {n : String} {files : List String} :
    n ∈ downUnits (sortDesc files) ↔ n ∈ downUnits files := by
  simp only [mem_downUnits, (sortDesc_perm files).mem_iff]

/-- What `up` does for a directory entry whose unit is in the ledger: the ledger query,
which either fails or finds the entry, and nothing else. -/
theorem upFile_of_applied (env : Env) {f : String} {w : World}
    (hs : hasSuffix f upSuffix = true) (hmem : trimSuffix f upSuffix ∈ w.names) :
    upFile env f w = (none, w.logCall (.query (trimSuffix f upSuffix))) ∨
      upFile env f w = (some .queryFailed, w.logCall (.query (trimSuffix f upSuffix))) := by
  have hstep := upFile_step env f w
  generalize upFile env f w = r at hstep
  cases hstep with
  | other hs' => rw [hs] at hs'; simp at hs'
  | queryErr _ _ => exact Or.inr rfl
  | skipped _ _ _ => exact Or.inl rfl
  | readErr _ hq _ => exact absurd hmem (queryScan_errNoRows hq).2.2
  | execErr _ _ hq _ _ => exact absurd hmem (queryScan_errNoRows hq).2.2
  | recordErr _ _ hq _ _ _ => exact absurd hmem (queryScan_errNoRows hq).2.2
  | recorded _ _ hq _ _ _ => exact absurd hmem (queryScan_errNoRows hq).2.2

theorem upLoop_all_applied (env : Env) (files : List String) (w : World)
    (h : ∀ n ∈ upUnits files, n ∈ w.names) :
    (upLoop env files w).2.ledger = w.ledger ∧ (upLoop env files w).2.lastId = w.lastId ∧
      (upLoop env files w).2.out = w.out ∧
      (∃ d, (upLoop env files w).2.log = w.log ++ d ∧
        ∀ c ∈ d, ∃ n ∈ upUnits files, c = .query n) ∧
      ((upLoop env files w).1 = none ∨ (upLoop env files w).1 = some .queryFailed) := by
  induction files generalizing w with
  | nil => exact ⟨rfl, rfl, rfl, ⟨[], by simp [upLoop], by simp⟩, Or.inl rfl⟩
  | cons f fs ih =>
    rw [upUnits_cons] at h ⊢
    by_cases hs : hasSuffix f upSuffix = true
    · simp only [hs, if_true, List.mem_cons, forall_eq_or_imp] at h ⊢
      rcases upFile_of_applied env hs h.1 with hf | hf
      · have ho : (upFile env f w).1 = none := by rw [hf]
        rw [upLoop_cons_none ho, hf]
        obtain ⟨h1, h2, h3, ⟨d, h4, h5⟩, h6⟩ := ih (w.logCall (.query (trimSuffix f upSuffix)))
          (fun n hn => h.2 n hn)
        refine ⟨h1, h2, h3, ⟨.query (trimSuffix f upSuffix) :: d, by rw [h4]; simp, ?_⟩, h6⟩
        intro c hc
        rcases List.mem_cons.1 hc with hc | hc
        · exact ⟨_, Or.inl rfl, hc⟩
        · obtain ⟨n, hn, hcn⟩ := h5 c hc
          exact ⟨n, Or.inr hn, hcn⟩
      · have ho : (upFile env f w).1 = some .queryFailed := by rw [hf]
        rw [upLoop_cons_some ho, hf]
        exact ⟨rfl, rfl, rfl, ⟨[.query (trimSuffix f upSuffix)], rfl,
          fun c hc => ⟨_, Or.inl rfl, by simpa using hc⟩⟩, Or.inr rfl⟩
    · have hs' := Bool.eq_false_iff.2 hs
      have hf : upFile env f w = (none, w) := by simp [upFile, hs']
      have ho : (upFile env f w).1 = none := by rw [hf]
      simp only [hs', Bool.false_eq_true, if_false] at h ⊢
      rw [upLoop_cons_none ho, hf]
      exact ih w h


theorem queryScan_of_mem {env : Env} {w : World} {n : String}
    (hf : env.fault w (.query n) = false) (hs : w.ledger.isSome = true)
    (hfit : ∀ e ∈ w.rows, fitsInt32 e.id = true) (hn : n ∈ w.names) :
    ∃ e, w.rows.find? (fun e => e.name == n) = some e ∧
      queryScan env w n = (.ok e.id, w.logCall (.query n)) := by
  cases hfind : w.rows.find? (fun e => e.name == n) with
  | none =>
    rw [List.find?_eq_none] at hfind
    obtain ⟨e, he, hen⟩ := List.mem_map.1 hn
    exact absurd (by simp [hen]) (hfind e he)
  | some e =>
    exact ⟨e, rfl, queryScan_of_find hf hs hfind (hfit e (List.mem_of_find?_eq_some hfind))⟩

theorem upLoop_all_applied_ok (env : Env) (files : List String) (w : World)
    (hnf : ∀ s c, env.fault s c = false) (hs : w.ledger.isSome = true)
    (hfit : ∀ e ∈ w.rows, fitsInt32 e.id = true) (h : ∀ n ∈ upUnits files, n ∈ w.names) :
    upLoop env files w =
      (none, { w with log := w.log ++ (upUnits files).map Call.query }) := by
  induction files generalizing w with
  | nil => simp [upLoop, upUnits]
  | cons f fs ih =>
    rw [upUnits_cons] at h ⊢
    by_cases hsuf : hasSuffix f upSuffix = true
    · simp only [hsuf, if_true, List.mem_cons, forall_eq_or_imp] at h ⊢
      obtain ⟨e, _, hq⟩ := queryScan_of_mem (hnf w _) hs hfit h.1
      have hf : upFile env f w = (none, w.logCall (.query (trimSuffix f upSuffix))) := by
        simp only [upFile, hsuf, if_true, hq]
      have ho : (upFile env f w).1 = none := by rw [hf]
      rw [upLoop_cons_none ho, hf]
      show upLoop env fs (w.logCall (.query (trimSuffix f upSuffix))) = _
      rw [ih (w.logCall (.query (trimSuffix f upSuffix))) hs hfit (fun n hn => h.2 n hn)]
      simp [World.logCall]
    · have hs' := Bool.eq_false_iff.2 hsuf
      have hf : upFile env f w = (none, w) := by simp [upFile, hs']
      have ho : (upFile env f w).1 = none := by rw [hf]
      simp only [hs', Bool.false_eq_true, if_false] at h ⊢
      rw [upLoop_cons_none ho, hf]
      exact ih w hs hfit h

theorem checkMigrationTable_of_isSome (env : Env) (w : World) (hs : w.ledger.isSome = true) :
    checkMigrationTable env w = (some .probeFailed, w.logCall .probe) ∨
      checkMigrationTable env w =
        (some .rowsAffectedFailed, (w.logCall .probe).logCall .rowsAffected) ∨
      checkMigrationTable env w = (none, (w.logCall .probe).logCall .rowsAffected) := by
  have h := checkMigrationTable_step env w
  generalize checkMigrationTable env w = r at h
  cases h with
  | probeErr _ => exact Or.inl rfl
  | rowsErr _ _ => exact Or.inr (Or.inl rfl)
  | present _ _ _ => exact Or.inr (Or.inr rfl)
  | createErr _ _ hl _ => rw [hl] at hs; simp at hs
  | created _ _ hl _ => rw [hl] at hs; simp at hs

/-- C2 (as amended): idempotence of `up`. If a run of `up` completes without failure and
`up` is run again on the same directory listing (with any store behaviour and any file
contents), then every `_up.sql` unit has an entry in the ledger the second run starts
from; the second run leaves the migrations table and the id counter as they were; the
calls it makes are the probe, the reading of its count and ledger queries for units of
the listing, so it executes no script and performs no insert (nor creates the table); it
prints no "Applying migration" line; and it ends successfully or with a failure of the
connection, of the table probe or of a ledger query. When the connection opens, the
store rejects no call and every stored id fits the `int32` the query scans into, the
second run completes: it queries every unit once, in order, finds each in the ledger,
and prints only the final line. -/
theorem up_idempotent (env env2 : Env) (w w1 : World) (files : List String)
    (hdir : env.readDir = some files) (hdir2 : env2.readDir = some files)
    (hfirst : up env w = (none, w1)) :
    (∀ n ∈ upUnits files, n ∈ w1.names) ∧
    (up env2 w1).2.ledger = w1.ledger ∧ (up env2 w1).2.lastId = w1.lastId ∧
    (∃ d, (up env2 w1).2.log = w1.log ++ d ∧
      ∀ c ∈ d, c = .probe ∨ c = .rowsAffected ∨ ∃ n ∈ upUnits files, c = .query n) ∧
    ((up env2 w1).2.out = w1.out ∨
      (up env2 w1).2.out = w1.out ++ ["Finished applying migrations ✅"]) ∧
    ((up env2 w1).1 = none ∨ (up env2 w1).1 = some .connect ∨
      (up env2 w1).1 = some (.checkTable .probeFailed) ∨
      (up env2 w1).1 = some (.checkTable .rowsAffectedFailed) ∨
      (up env2 w1).1 = some .queryFailed) ∧
    (env2.openOk = true → (∀ s c, env2.fault s c = false) →
      (∀ e ∈ w1.rows, fitsInt32 e.id = true) →
      up env2 w1 = (none,
        { w1 with
            log := w1.log ++ [.probe, .rowsAffected] ++
              (upUnits (sortAsc files)).map Call.query
            out := w1.out ++ ["Finished applying migrations ✅"] })) := by
  obtain ⟨_, wc, files', w2, hcheck, hdir', hloop, hw1⟩ := up_ok_inv hfirst
  rw [hdir] at hdir'
  simp only [Option.some.injEq] at hdir'
  subst hdir'
  have happlied : ∀ n ∈ upUnits files, n ∈ w1.names := by
    intro n hn
    rw [hw1]
    exact upLoop_ok_all_applied hloop n (mem_upUnits_sortAsc.2 hn)
  have hsome : w1.ledger.isSome = true := by
    have h1 := (checkMigrationTable_frame env w).2.2.2.2
    rw [hcheck] at h1
    have h2 := upLoop_invariant (fun w => w.ledger.isSome = true) (sortAsc files)
      (fun f _ w hw => upFile_isSome env f w hw) wc (h1 rfl)
    rw [hloop] at h2
    rw [hw1]
    exact h2
  refine ⟨happlied, ?_⟩
  by_cases hopen : env2.openOk = true
  · have hall : ∀ wc2 : World, wc2.names = w1.names →
        ∀ n ∈ upUnits (sortAsc files), n ∈ wc2.names := fun wc2 hn n hmem => by
      rw [hn]
      exact happlied n (mem_upUnits_sortAsc.1 hmem)
    rcases checkMigrationTable_of_isSome env2 w1 hsome with hc | hc | hc
    · have hup : up env2 w1 = (some (.checkTable .probeFailed), w1.logCall .probe) := by
        simp only [up, hopen, if_true, hc]
      rw [hup]
      refine ⟨rfl, rfl, ⟨[.probe], rfl, by simp⟩, Or.inl rfl, by simp, ?_⟩
      intro _ hnf _
      have h := checkMigrationTable_step env2 w1
      rw [hc] at h
      cases h with
      | probeErr hp => rw [hnf] at hp; simp at hp
    · have hup : up env2 w1 = (some (.checkTable .rowsAffectedFailed),
          (w1.logCall .probe).logCall .rowsAffected) := by
        simp only [up, hopen, if_true, hc]
      rw [hup]
      refine ⟨rfl, rfl, ⟨[.probe, .rowsAffected], by simp, by simp⟩, Or.inl rfl, by simp, ?_⟩
      intro _ hnf _
      have h := checkMigrationTable_step env2 w1
      rw [hc] at h
      cases h with
      | rowsErr _ hr => rw [hnf] at hr; simp at hr
    · obtain ⟨h1, h2, h3, ⟨d, h4, h5⟩, h6⟩ := upLoop_all_applied env2 (sortAsc files)
        ((w1.logCall .probe).logCall .rowsAffected) (hall _ rfl)
      have hup : up env2 w1 =
          match upLoop env2 (sortAsc files) ((w1.logCall .probe).logCall .rowsAffected) with
          | (some e, w2) => (some e, w2)
          | (none, w2) => (none, w2.print "Finished applying migrations ✅") := by
        simp only [up, hopen, if_true, hc, hdir2]
      have hd : ∀ c ∈ [Call.probe, Call.rowsAffected] ++ d,
          c = .probe ∨ c = .rowsAffected ∨ ∃ n ∈ upUnits files, c = .query n := by
        intro c hc
        simp only [List.mem_append, List.mem_cons, List.mem_singleton, List.not_mem_nil,
          or_false] at hc
        rcases hc with (hc | hc) | hc
        · exact Or.inl hc
        · exact Or.inr (Or.inl hc)
        · obtain ⟨n, hn, hcn⟩ := h5 c hc
          exact Or.inr (Or.inr ⟨n, mem_upUnits_sortAsc.1 hn, hcn⟩)
      refine ⟨?_, ?_, ?_, ?_, ?_, ?_⟩
      · rw [hup]
        rcases hl : upLoop env2 (sortAsc files) ((w1.logCall .probe).logCall .rowsAffected)
          with ⟨o, w3⟩
        rw [hl] at h1
        cases o <;> exact h1
      · rw [hup]
        rcases hl : upLoop env2 (sortAsc files) ((w1.logCall .probe).logCall .rowsAffected)
          with ⟨o, w3⟩
        rw [hl] at h2
        cases o <;> exact h2
      · refine ⟨[.probe, .rowsAffected] ++ d, ?_, hd⟩
        rw [hup]
        rcases hl : upLoop env2 (sortAsc files) ((w1.logCall .probe).logCall .rowsAffected)
          with ⟨o, w3⟩
        rw [hl] at h4
        cases o <;> simpa using h4
      · rw [hup]
        rcases hl : upLoop env2 (sortAsc files) ((w1.logCall .probe).logCall .rowsAffected)
          with ⟨o, w3⟩
        rw [hl] at h3
        cases o with
        | none => exact Or.inr (by simpa using h3)
        | some e => exact Or.inl (by simpa using h3)
      · rw [hup]
        rcases hl : upLoop env2 (sortAsc files) ((w1.logCall .probe).logCall .rowsAffected)
          with ⟨o, w3⟩
        rw [hl] at h6
        cases o with
        | none => exact Or.inl rfl
        | some e =>
          rcases h6 with h6 | h6
          · simp at h6
          · simp only [Option.some.injEq] at h6
            subst h6
            exact Or.inr (Or.inr (Or.inr (Or.inr rfl)))
      · intro _ hnf hfit
        rw [hup, upLoop_all_applied_ok env2 (sortAsc files)
          ((w1.logCall .probe).logCall .rowsAffected) hnf hsome hfit (hall _ rfl)]
        simp [World.logCall, World.print]
  · have hup : up env2 w1 = (some .connect, w1) := by
      simp only [up, hopen, if_false]
      rfl
    rw [hup]
    exact ⟨rfl, rfl, ⟨[], by simp, by simp⟩, Or.inl rfl, by simp, fun h => absurd h hopen⟩

/-- C2, witness: a second run of `up`, even with a script made unreadable, leaves the
ledger `a`, `b`, `c` of the first run as it is. -/
theorem up_idempotent_witness :
    (up (unreadableEnv abcFiles "a_up.sql") (up (okEnv abcFiles) freshWorld).2).2.ledger =
        (up (okEnv abcFiles) freshWorld).2.ledger ∧
      (up (okEnv abcFiles) freshWorld).2.names = ["a", "b", "c"] :=
  ⟨(up_idempotent (okEnv abcFiles) (unreadableEnv abcFiles "a_up.sql") freshWorld
      (up (okEnv abcFiles) freshWorld).2 abcFiles rfl rfl (by decide)).2.1,
    by decide⟩

/-- C2, counterexample: the ledger holds one entry with the largest `int32` id and the
directory has `a_up.sql`. The first run of `up` completes without failure and records
`a` with the next id; the second run, on the same listing and with the store rejecting
no call, does not find `a`: its ledger query for `a` fails on the scan of the id and the
run ends with "Failed to query migrations table". -/
theorem up_idempotent_counterexample :
    (up (okEnv ["a_up.sql"])
        { ledger := some [⟨2147483647, "old"⟩], lastId := 2147483647, log := [],
          out := [] }).1 = none ∧
      (up (okEnv ["a_up.sql"])
        { ledger := some [⟨2147483647, "old"⟩], lastId := 2147483647, log := [],
          out := [] }).2.rows = [⟨2147483647, "old"⟩, ⟨2147483648, "a"⟩] ∧
      (up (okEnv ["a_up.sql"])
        (up (okEnv ["a_up.sql"])
          { ledger := some [⟨2147483647, "old"⟩], lastId := 2147483647, log := [],
            out := [] }).2).1 = some .queryFailed := by
  decide

/-! ## Processing order -/

theorem queried_append (d1 d2 : List Call) : queried (d1 ++ d2) = queried d1 ++ queried d2 := by
  induction d1 with
  | nil => rfl
  | cons c d ih => cases c <;> simp [queried, ih]

theorem upFile_queried (env : Env) (f : String) (w : World) :
    ∃ d, (upFile env f w).2.log = w.log ++ d ∧
      queried d = if hasSuffix f upSuffix = true then [trimSuffix f upSuffix] else [] := by
  have h := upFile_step env f w
  generalize upFile env f w = r at h
  cases h with
  | other hs => exact ⟨[], by simp, by simp [hs, queried]⟩
  | queryErr hs hq => exact ⟨[.query (trimSuffix f upSuffix)], rfl, by simp [hs, queried]⟩
  | skipped id hs hq => exact ⟨[.query (trimSuffix f upSuffix)], rfl, by simp [hs, queried]⟩
  | readErr hs hq hr => exact ⟨[.query (trimSuffix f upSuffix)], rfl, by simp [hs, queried]⟩
  | execErr content hs hq hr hx =>
    exact ⟨[.query (trimSuffix f upSuffix), .exec content], by simp, by simp [hs, queried]⟩
  | recordErr content hs hq hr hx hi =>
    exact ⟨[.query (trimSuffix f upSuffix), .exec content, .record (trimSuffix f upSuffix)],
      by simp, by simp [hs, queried]⟩
  | recorded content hs hq hr hx hi =>
    exact ⟨[.query (trimSuffix f upSuffix), .exec content, .record (trimSuffix f upSuffix)],
      rfl, by simp [hs, queried]⟩

theorem downFile_queried (env : Env) (f : String) (w : World) :
    ∃ d, (downFile env f w).2.log = w.log ++ d ∧
      queried d = if hasSuffix f downSuffix = true then [trimSuffix f downSuffix] else [] := by
  have h := downFile_step env f w
  generalize downFile env f w = r at h
  cases h with
  | other hs => exact ⟨[], by simp, by simp [hs, queried]⟩
  | queryErr hs hq => exact ⟨[.query (trimSuffix f downSuffix)], rfl, by simp [hs, queried]⟩
  | notApplied hs hq =>
    exact ⟨[.query (trimSuffix f downSuffix)], rfl, by simp [hs, queried]⟩
  | notPositive id hs hq hid =>
    exact ⟨[.query (trimSuffix f downSuffix)], rfl, by simp [hs, queried]⟩
  | readErr id hs hq hid hr =>
    exact ⟨[.query (trimSuffix f downSuffix)], rfl, by simp [hs, queried]⟩
  | execErr id content hs hq hid hr hx =>
    exact ⟨[.query (trimSuffix f downSuffix), .exec content], by simp, by simp [hs, queried]⟩
  | removeErr id content hs hq hid hr hx hd =>
    exact ⟨[.query (trimSuffix f downSuffix), .exec content, .delete id], by simp,
      by simp [hs, queried]⟩
  | removed id content hs hq hid hr hx hd =>
    exact ⟨[.query (trimSuffix f downSuffix), .exec content, .delete id], rfl,
      by simp [hs, queried]⟩

theorem upLoop_queried (env : Env) (files : List String) (w : World) :
    ∃ d, (upLoop env files w).2.log = w.log ++ d ∧ queried d <+: upUnits files ∧
      ((upLoop env files w).1 = none → queried d = upUnits files) := by
  induction files generalizing w with
  | nil => exact ⟨[], by simp [upLoop], by simp [queried, upUnits], fun _ => rfl⟩
  | cons f fs ih =>
    obtain ⟨d1, hd1, hq1⟩ := upFile_queried env f w
    have hunits : upUnits (f :: fs) = queried d1 ++ upUnits fs := by
      rw [upUnits_cons, hq1]
      split <;> rfl
    cases ho : (upFile env f w).1 with
    | none =>
      rw [upLoop_cons_none ho]
      obtain ⟨d2, hd2, hp2, he2⟩ := ih (upFile env f w).2
      refine ⟨d1 ++ d2, by rw [hd2, hd1, List.append_assoc], ?_, ?_⟩
      · rw [queried_append, hunits]
        exact (List.prefix_append_right_inj _).2 hp2
      · intro hnone
        rw [queried_append, hunits, he2 hnone]
    | some e =>
      rw [upLoop_cons_some ho]
      refine ⟨d1, hd1, ?_, fun hnone => by rw [ho] at hnone; simp at hnone⟩
      rw [hunits]
      exact List.prefix_append _ _

theorem downLoop_queried (env : Env) (files : List String) (w : World) :
    ∃ d, (downLoop env files w).2.log = w.log ++ d ∧ queried d <+: downUnits files ∧
      ((downLoop env files w).1 = none → queried d = downUnits files) := by
  induction files generalizing w with
  | nil => exact ⟨[], by simp [downLoop], by simp [queried, downUnits], fun _ => rfl⟩
  | cons f fs ih =>
    obtain ⟨d1, hd1, hq1⟩ := downFile_queried env f w
    have hunits : downUnits (f :: fs) = queried d1 ++ downUnits fs := by
      rw [downUnits_cons, hq1]
      split <;> rfl
    cases ho : (downFile env f w).1 with
    | none =>
      rw [downLoop_cons_none ho]
      obtain ⟨d2, hd2, hp2, he2⟩ := ih (downFile env f w).2
      refine ⟨d1 ++ d2, by rw [hd2, hd1, List.append_assoc], ?_, ?_⟩
      · rw [queried_append, hunits]
        exact (List.prefix_append_right_inj _).2 hp2
      · intro hnone
        rw [queried_append, hunits, he2 hnone]
    | some e =>
      rw [downLoop_cons_some ho]
      refine ⟨d1, hd1, ?_, fun hnone => by rw [ho] at hnone; simp at hnone⟩
      rw [hunits]
      exact List.prefix_append _ _

theorem queried_tableCalls {d : List Call} (h : ∀ c ∈ d, c.isTableCall = true) :
    queried d = [] := by
  induction d with
  | nil => rfl
  | cons c d ih =>
    have hc := h c (List.mem_cons_self _ _)
    have hd := ih (fun c hc => h c (List.mem_cons_of_mem _ hc))
    cases c <;> simp [Call.isTableCall] at hc <;> simp [queried, hd]

theorem up_queried (env : Env) (w : World) (files : List String)
    (hdir : env.readDir = some files) :
    ∃ d, (up env w).2.log = w.log ++ d ∧ queried d <+: upUnits (sortAsc files) ∧
      ((up env w).1 = none → queried d = upUnits (sortAsc files)) := by
  obtain ⟨d0, hd0, hc0⟩ := (checkMigrationTable_frame env w).2.2.2.1
  have hq0 := queried_tableCalls hc0
  unfold up
  split
  · rcases hc : checkMigrationTable env w with ⟨o, w1⟩
    rw [hc] at hd0
    cases o with
    | some e => exact ⟨d0, hd0, by rw [hq0]; exact List.nil_prefix, by simp⟩
    | none =>
      simp only [hdir]
      obtain ⟨d1, hd1, hp1, he1⟩ := upLoop_queried env (sortAsc files) w1
      have hlog : (upLoop env (sortAsc files) w1).2.log = w.log ++ (d0 ++ d1) := by
        rw [hd1, hd0, List.append_assoc]
      have hq : queried (d0 ++ d1) = queried d1 := by rw [queried_append, hq0]; rfl
      rcases hl : upLoop env (sortAsc files) w1 with ⟨o2, w2⟩
      rw [hl] at hlog he1
      cases o2 with
      | some e => exact ⟨d0 ++ d1, hlog, by rw [hq]; exact hp1, by simp⟩
      | none => exact ⟨d0 ++ d1, hlog, by rw [hq]; exact hp1, fun _ => by rw [hq, he1 rfl]⟩
  · exact ⟨[], by simp, by simp [queried], by simp⟩

theorem down_queried (env : Env) (w : World) (files : List String)
    (hdir : env.readDir = some files) :
    ∃ d, (down env w).2.log = w.log ++ d ∧ queried d <+: downUnits (sortDesc files) ∧
      ((down env w).1 = none → queried d = downUnits (sortDesc files)) := by
  obtain ⟨d0, hd0, hc0⟩ := (checkMigrationTable_frame env w).2.2.2.1
  have hq0 := queried_tableCalls hc0
  unfold down
  split
  · rcases hc : checkMigrationTable env w with ⟨o, w1⟩
    rw [hc] at hd0
    cases o with
    | some e => exact ⟨d0, hd0, by rw [hq0]; exact List.nil_prefix, by simp⟩
    | none =>
      simp only [hdir]
      obtain ⟨d1, hd1, hp1, he1⟩ := downLoop_queried env (sortDesc files) w1
      have hlog : (downLoop env (sortDesc files) w1).2.log = w.log ++ (d0 ++ d1) := by
        rw [hd1, hd0, List.append_assoc]
      have hq : queried (d0 ++ d1) = queried d1 := by rw [queried_append, hq0]; rfl
      rcases hl : downLoop env (sortDesc files) w1 with ⟨o2, w2⟩
      rw [hl] at hlog he1
      cases o2 with
      | some e => exact ⟨d0 ++ d1, hlog, by rw [hq]; exact hp1, by simp⟩
      | none => exact ⟨d0 ++ d1, hlog, by rw [hq]; exact hp1, fun _ => by rw [hq, he1 rfl]⟩
  · exact ⟨[], by simp, by simp [queried], by simp⟩


theorem lex_of_append_lex {x y s : List Char} (h : x ++ s < y ++ s) (hp : ¬ y <+: x) :
    x < y := by
  induction x generalizing y with
  | nil =>
    cases y with
    | nil => exact absurd h (lt_irrefl _)
    | cons b y => exact List.nil_lt_cons b y
  | cons a x ih =>
    cases y with
    | nil => exact absurd List.nil_prefix hp
    | cons b y =>
      rw [List.cons_append, List.cons_append] at h
      cases h with
      | cons h1 =>
        exact List.Lex.cons (ih h1 (fun hpre => hp ((List.prefix_cons_inj a).2 hpre)))
      | rel h1 => exact List.Lex.rel h1

theorem le_of_append_le {x y s : List Char} (h : x ++ s ≤ y ++ s) (hp : y <+: x → y = x) :
    x ≤ y := by
  rcases lt_or_eq_of_le h with h1 | h1
  · have hne : y ≠ x := fun hxy => by
      rw [hxy] at h1
      exact lt_irrefl _ h1
    exact le_of_lt (lex_of_append_lex h1 (fun hpre => hne (hp hpre)))
  · exact le_of_eq (List.append_cancel_right h1)

theorem data_of_hasSuffix {f suffix : String} (h : hasSuffix f suffix = true) :
    f.data = (trimSuffix f suffix).data ++ suffix.data := by
  conv_lhs => rw [← trimSuffix_append_self h]
  simp

theorem upUnits_sorted_of_prefixFree {files : List String}
    (hfree : ∀ x ∈ upUnits files, ∀ y ∈ upUnits files, x.data <+: y.data → x = y) :
    (upUnits (sortAsc files)).Sorted (fun a b => a.data ≤ b.data) := by
  unfold upUnits
  refine List.Pairwise.map _ ?_
    (List.Pairwise.and_mem.1 ((sortAsc_sorted files).sublist (List.filter_sublist _)))
  intro a b hab
  obtain ⟨ha, hb, hle⟩ := hab
  have hsa := (List.mem_filter.1 ha).2
  have hsb := (List.mem_filter.1 hb).2
  have hma : trimSuffix a upSuffix ∈ upUnits files :=
    mem_upUnits.2 ⟨a, (sortAsc_perm files).mem_iff.1 (List.mem_filter.1 ha).1, hsa, rfl⟩
  have hmb : trimSuffix b upSuffix ∈ upUnits files :=
    mem_upUnits.2 ⟨b, (sortAsc_perm files).mem_iff.1 (List.mem_filter.1 hb).1, hsb, rfl⟩
  rw [data_of_hasSuffix hsa, data_of_hasSuffix hsb] at hle
  exact le_of_append_le hle (fun hpre => congrArg String.data (hfree _ hmb _ hma hpre))

theorem downUnits_sorted_of_prefixFree {files : List String}
    (hfree : ∀ x ∈ downUnits files, ∀ y ∈ downUnits files, x.data <+: y.data → x = y) :
    (downUnits (sortDesc files)).Sorted (fun a b => b.data ≤ a.data) := by
  unfold downUnits
  refine List.Pairwise.map _ ?_
    (List.Pairwise.and_mem.1 ((sortDesc_sorted files).sublist (List.filter_sublist _)))
  intro a b hab
  obtain ⟨ha, hb, hle⟩ := hab
  have hsa := (List.mem_filter.1 ha).2
  have hsb := (List.mem_filter.1 hb).2
  have hma : trimSuffix a downSuffix ∈ downUnits files :=
    mem_downUnits.2 ⟨a, (sortDesc_perm files).mem_iff.1 (List.mem_filter.1 ha).1, hsa, rfl⟩
  have hmb : trimSuffix b downSuffix ∈ downUnits files :=
    mem_downUnits.2 ⟨b, (sortDesc_perm files).mem_iff.1 (List.mem_filter.1 hb).1, hsb, rfl⟩
  rw [data_of_hasSuffix hsa, data_of_hasSuffix hsb] at hle
  exact le_of_append_le hle (fun hpre => congrArg String.data (hfree _ hma _ hmb hpre))

/-- C3 (as amended): processing order follows the file name. The identifiers `up` queries,
in order, are a prefix of (and, when the run completes, exactly) the identifiers of the
directory entries ending in `_up.sql` taken in ascending order of file name; `down` does
the same with the entries ending in `_down.sql` in descending order of file name. The
entries so ordered are a permutation of the listing's entries with the suffix. Whenever no
unit identifier of the listing is a proper prefix of another one, this is ascending
(for `down`: descending) lexicographic order of identifier. -/
theorem processing_order (env : Env) (w : World) (files : List String)
    (hdir : env.readDir = some files) :
    (∃ d, (up env w).2.log = w.log ++ d ∧ queried d <+: upUnits (sortAsc files) ∧
      ((up env w).1 = none → queried d = upUnits (sortAsc files))) ∧
    (∃ d, (down env w).2.log = w.log ++ d ∧ queried d <+: downUnits (sortDesc files) ∧
      ((down env w).1 = none → queried d = downUnits (sortDesc files))) ∧
    ((sortAsc files).filter (fun f => hasSuffix f upSuffix)).Sorted
      (fun a b => a.data ≤ b.data) ∧
    ((sortAsc files).filter (fun f => hasSuffix f upSuffix)).Perm
      (files.filter (fun f => hasSuffix f upSuffix)) ∧
    ((sortDesc files).filter (fun f => hasSuffix f downSuffix)).Sorted
      (fun a b => b.data ≤ a.data) ∧
    ((sortDesc files).filter (fun f => hasSuffix f downSuffix)).Perm
      (files.filter (fun f => hasSuffix f downSuffix)) ∧
    ((∀ x ∈ upUnits files, ∀ y ∈ upUnits files, x.data <+: y.data → x = y) →
      (upUnits (sortAsc files)).Sorted (fun a b => a.data ≤ b.data)) ∧
    ((∀ x ∈ downUnits files, ∀ y ∈ downUnits files, x.data <+: y.data → x = y) →
      (downUnits (sortDesc files)).Sorted (fun a b => b.data ≤ a.data)) :=
  ⟨up_queried env w files hdir, down_queried env w files hdir,
    (sortAsc_sorted files).sublist (List.filter_sublist _),
    (sortAsc_perm files).filter _,
    (sortDesc_sorted files).sublist (List.filter_sublist _),
    (sortDesc_perm files).filter _,
    upUnits_sorted_of_prefixFree, downUnits_sorted_of_prefixFree⟩

/-- C3, witness: the units `a`, `b`, `c`, none a prefix of another, are processed in
ascending order by `up` and in descending order by `down`. -/
theorem processing_order_witness :
    (upUnits (sortAsc abcFiles)).Sorted (fun a b => a.data ≤ b.data) ∧
      upUnits (sortAsc abcFiles) = ["a", "b", "c"] ∧
      downUnits (sortDesc ["a_down.sql", "c_down.sql", "b_down.sql"]) = ["c", "b", "a"] :=
  ⟨(processing_order (okEnv abcFiles) freshWorld abcFiles rfl).2.2.2.2.2.2.1 (by decide),
    by decide, by decide⟩

/-- C3, counterexample: the identifiers `m` and `m2` satisfy `m < m2`, yet `up` on
`m_up.sql`, `m2_up.sql` processes `m2` before `m` (the file name `m2_up.sql` is the
smaller one), and `down` on `m_down.sql`, `m2_down.sql` processes `m` before `m2`. -/
theorem processing_order_counterexample :
    "m".data < "m2".data ∧
      queried (up (okEnv ["m_up.sql", "m2_up.sql"]) freshWorld).2.log = ["m2", "m"] ∧
      ¬ (queried (up (okEnv ["m_up.sql", "m2_up.sql"]) freshWorld).2.log).Sorted
        (fun a b => a.data ≤ b.data) ∧
      queried (down (okEnv ["m_down.sql", "m2_down.sql"]) freshWorld).2.log = ["m", "m2"] ∧
      ¬ (queried (down (okEnv ["m_down.sql", "m2_down.sql"]) freshWorld).2.log).Sorted
        (fun a b => b.data ≤ a.data) := by
  decide


/-! ## A completed stretch of the loop of `down` -/

theorem eq_of_name_eq {rows : List Entry} (hn : (rows.map Entry.name).Nodup) {x e : Entry}
    (hx : x ∈ rows) (he : e ∈ rows) (h : x.name = e.name) : x = e :=
  List.inj_on_of_nodup_map hn hx he h

theorem eq_of_id_eq {rows : List Entry} (hn : (rows.map Entry.id).Nodup) {x e : Entry}
    (hx : x ∈ rows) (he : e ∈ rows) (h : x.id = e.id) : x = e :=
  List.inj_on_of_nodup_map hn hx he h

theorem downFile_ok_rows {env : Env} {f : String} {w : World}
    (h : (downFile env f w).1 = none) (hnames : w.names.Nodup)
    (hids : (w.rows.map Entry.id).Nodup) :
    (downFile env f w).2.rows = w.rows.filter (fun x => !revertedBy f x) := by
  have hstep := downFile_step env f w
  generalize downFile env f w = r at hstep h
  cases hstep with
  | other hs =>
    symm
    exact List.filter_eq_self.2 (fun x _ => by simp [revertedBy, hs])
  | queryErr hs hq => simp at h
  | notApplied hs hq =>
    have hn := (queryScan_errNoRows hq).2.2
    symm
    refine List.filter_eq_self.2 (fun x hx => ?_)
    have hne : x.name ≠ trimSuffix f downSuffix := fun hEq =>
      hn (List.mem_map.2 ⟨x, hx, hEq⟩)
    simp [revertedBy, hne]
  | notPositive id hs hq hid =>
    obtain ⟨_, _, e, he, hid'⟩ := queryScan_ok hq
    subst hid'
    have hemem := List.mem_of_find?_eq_some he
    have hename : e.name = trimSuffix f downSuffix := by simpa using List.find?_some he
    symm
    refine List.filter_eq_self.2 (fun x hx => ?_)
    by_cases hxn : x.name = trimSuffix f downSuffix
    · have hxe : x = e := eq_of_name_eq hnames hx hemem (hxn.trans hename.symm)
      subst hxe
      simp [revertedBy, hid]
    · simp [revertedBy, hxn]
  | readErr id hs hq hid hr => simp at h
  | execErr id content hs hq hid hr hx => simp at h
  | removeErr id content hs hq hid hr hx hd => simp at h
  | removed id content hs hq hid hr hx hd =>
    obtain ⟨_, _, e, he, hid'⟩ := queryScan_ok hq
    subst hid'
    have hemem := List.mem_of_find?_eq_some he
    have hename : e.name = trimSuffix f downSuffix := by simpa using List.find?_some he
    show (w.rows.filter (fun x => x.id != e.id)) = _
    apply List.filter_congr
    intro x hx
    by_cases hxe : x = e
    · subst hxe
      simp [revertedBy, hs, hid, hename]
    · have h1 : x.id ≠ e.id := fun hEq => hxe (eq_of_id_eq hids hx hemem hEq)
      have h2 : x.name ≠ trimSuffix f downSuffix := fun hEq =>
        hxe (eq_of_name_eq hnames hx hemem (hEq.trans hename.symm))
      simp [revertedBy, h1, h2]

theorem ids_nodup_of_sublist {rows rows1 : List Entry} (hs : rows1.Sublist rows)
    (h : (rows.map Entry.id).Nodup) : (rows1.map Entry.id).Nodup :=
  List.Nodup.sublist (List.Sublist.map _ hs) h

theorem downLoop_ok_rows {env : Env} {pre : List String} {w w2 : World}
    (h : downLoop env pre w = (none, w2)) (hnames : w.names.Nodup)
    (hids : (w.rows.map Entry.id).Nodup) :
    w2.rows = w.rows.filter (fun x => !(decide (0 < x.id) && decide (x.name ∈ downUnits pre))) := by
  induction pre generalizing w with
  | nil =>
    simp only [downLoop, Prod.mk.injEq, true_and] at h
    subst h
    symm
    exact List.filter_eq_self.2 (fun x _ => by simp [downUnits])
  | cons f fs ih =>
    obtain ⟨h1, h2⟩ := downLoop_cons_ok h
    have hsub := downFile_rows_sublist env f w
    rw [ih h2 (names_nodup_of_sublist hsub hnames) (ids_nodup_of_sublist hsub hids),
      downFile_ok_rows h1 hnames hids, List.filter_filter]
    apply List.filter_congr
    intro x _
    rw [downUnits_cons]
    by_cases hs : hasSuffix f downSuffix = true
    · by_cases hx : x.name = trimSuffix f downSuffix
      · by_cases hid : 0 < x.id <;> simp [revertedBy, hs, hx, hid]
      · by_cases hid : 0 < x.id <;> simp [revertedBy, hs, hx, hid]
    · have hs' := Bool.eq_false_iff.2 hs
      simp [revertedBy, hs']


/-! ## Failure containment of `down` -/

theorem downFile_execErr {env : Env} {u content : String} {w : World} {id : Int}
    (hs : hasSuffix u downSuffix = true)
    (hq : (queryScan env w (trimSuffix u downSuffix)).1 = .ok id) (hid : 0 < id)
    (hr : env.readFile u = some content)
    (hx : env.fault ((w.logCall (.query (trimSuffix u downSuffix))).print
      ("Resetting migration: " ++ u)) (.exec content) = true) :
    downFile env u w = (some (.applyFailed u .exec),
      ((w.logCall (.query (trimSuffix u downSuffix))).print
        ("Resetting migration: " ++ u)).logCall (.exec content)) := by
  simp only [downFile, hs, if_true, queryScan_eq hq, hid, hr, execScript, hx, Bool.not_true]

theorem down_abort_log {env : Env} {w w1 w2 : World} {pre : List String} {u : String}
    {tail : List Call} (hcheck : checkMigrationTable env w = (none, w1))
    (hpre : downLoop env pre w1 = (none, w2))
    (htail : ∀ c ∈ tail, downCallOf env w.rows u c) :
    ∀ c ∈ w2.log ++ tail,
      c ∈ w.log ∨ c.isTableCall = true ∨ ∃ f ∈ pre ++ [u], downCallOf env w.rows f c := by
  obtain ⟨hrows, _, _, ⟨d0, hd0, hc0⟩, _⟩ := checkMigrationTable_frame env w
  obtain ⟨d1, hd1, hc1⟩ := downLoop_log env pre w1
  rw [hcheck] at hd0 hrows
  rw [hpre] at hd1
  simp only at hd0 hd1 hrows
  rw [hrows] at hc1
  intro c hc
  rw [hd1, hd0] at hc
  simp only [List.mem_append] at hc
  rcases hc with ((hc | hc) | hc) | hc
  · exact Or.inl hc
  · exact Or.inr (Or.inl (hc0 c hc))
  · obtain ⟨f, hf, hcall⟩ := hc1 c hc
    exact Or.inr (Or.inr ⟨f, List.mem_append_left _ hf, hcall⟩)
  · exact Or.inr (Or.inr ⟨u, by simp, htail c hc⟩)

/-- C9: failure containment of `down`. Let no two ledger rows share an identifier or a
surrogate id, let the listing sorted in descending order be `pre ++ u :: post`, let the
table check and the processing of `pre` complete without failure, let the ledger query
for `u` find an entry with a positive id, and let the store reject the reverse script of
`u`. Then `down` ends with the failure "Failed to apply migration from file u"; the entry
of `u` is still in the ledger with the same id; the ledger is the ledger before the run
without the rows of positive id whose identifier is a unit of `pre` (the units reverted
before `u`), every other row unchanged; the trace ends with the query and the script of
`u`, so no delete is issued for `u`; and every call of the run belongs to the table check
or to an entry of `pre ++ [u]`: no later unit is queried or executed. -/
theorem down_failure_containment (env : Env) (w w1 w2 : World)
    (files pre post : List String) (u content : String) (id : Int)
    (hopen : env.openOk = true) (hdir : env.readDir = some files)
    (hnames : w.names.Nodup) (hids : (w.rows.map Entry.id).Nodup)
    (hcheck : checkMigrationTable env w = (none, w1))
    (hsplit : sortDesc files = pre ++ u :: post) (hpre : downLoop env pre w1 = (none, w2))
    (hs : hasSuffix u downSuffix = true)
    (hq : (queryScan env w2 (trimSuffix u downSuffix)).1 = .ok id) (hid : 0 < id)
    (hr : env.readFile u = some content)
    (hx : env.fault ((w2.logCall (.query (trimSuffix u downSuffix))).print
      ("Resetting migration: " ++ u)) (.exec content) = true) :
    (down env w).1 = some (.applyFailed u .exec) ∧
    (⟨id, trimSuffix u downSuffix⟩ : Entry) ∈ (down env w).2.rows ∧
    (down env w).2.rows =
      w.rows.filter (fun x => !(decide (0 < x.id) && decide (x.name ∈ downUnits pre))) ∧
    (down env w).2.log = w2.log ++ [.query (trimSuffix u downSuffix), .exec content] ∧
    (∀ c ∈ (down env w).2.log,
      c ∈ w.log ∨ c.isTableCall = true ∨
        ∃ f ∈ pre ++ [u], downCallOf env w.rows f c) := by
  have hb := downFile_execErr hs hq hid hr hx
  have hdown : down env w = (some (.applyFailed u .exec),
      ((w2.logCall (.query (trimSuffix u downSuffix))).print
        ("Resetting migration: " ++ u)).logCall (.exec content)) := by
    have := down_of_abort hopen hcheck hdir hsplit hpre (by rw [hb])
    rw [hb] at this
    exact this
  have hlog : (down env w).2.log =
      w2.log ++ [.query (trimSuffix u downSuffix), .exec content] := by
    rw [hdown]
    simp
  have hrows1 : w1.rows = w.rows := by
    have := (checkMigrationTable_frame env w).1
    rwa [hcheck] at this
  have hnames1 : w1.names.Nodup := by rw [World.names, hrows1]; exact hnames
  have hids1 : (w1.rows.map Entry.id).Nodup := by rw [hrows1]; exact hids
  refine ⟨by rw [hdown], ?_, ?_, hlog, ?_⟩
  · rw [hdown]
    obtain ⟨_, _, e, he, hid'⟩ := queryScan_ok hq
    subst hid'
    exact find_name_mem he
  · rw [hdown]
    show w2.rows = _
    rw [downLoop_ok_rows hpre hnames1 hids1, hrows1]
  · rw [hlog]
    exact down_abort_log hcheck hpre (by simp [downCallOf, hs, hr])

/-- C9, witness: reverse scripts `a`, `b`, `c` on a ledger holding `a` and `b`, the store
rejecting the script of `a`: `c` is skipped, `b` is reverted, the run fails at `a` and
the entry of `a` stays. -/
theorem down_failure_containment_witness :
    (down (rejectEnv abcDownFiles (.exec "a_down.sql")) sampleWorld).1 =
        some (.applyFailed "a_down.sql" .exec) ∧
      (down (rejectEnv abcDownFiles (.exec "a_down.sql")) sampleWorld).2.rows =
        [⟨1, "a"⟩] ∧
      (down (rejectEnv abcDownFiles (.exec "a_down.sql")) sampleWorld).2.log =
        [.probe, .rowsAffected, .query "c", .query "b", .exec "b_down.sql", .delete 2,
          .query "a", .exec "a_down.sql"] :=
  ⟨(down_failure_containment (rejectEnv abcDownFiles (.exec "a_down.sql")) sampleWorld
      (checkMigrationTable (rejectEnv abcDownFiles (.exec "a_down.sql")) sampleWorld).2
      (downLoop (rejectEnv abcDownFiles (.exec "a_down.sql")) ["c_down.sql", "b_down.sql"]
        (checkMigrationTable (rejectEnv abcDownFiles (.exec "a_down.sql")) sampleWorld).2).2
      abcDownFiles ["c_down.sql", "b_down.sql"] [] "a_down.sql" "a_down.sql" 1
      rfl rfl (by decide) (by decide) (by decide) (by decide) (by decide) (by decide)
      (by decide) (by decide) rfl (by decide)).1,
    by decide, by decide⟩


/-! ## Runs in which nothing fails -/

theorem checkMigrationTable_ok_of_noFault (env : Env) (w : World)
    (hnf : ∀ s c, env.fault s c = false) : (checkMigrationTable env w).1 = none := by
  have h := checkMigrationTable_step env w
  generalize checkMigrationTable env w = r at h
  cases h with
  | probeErr hp => rw [hnf] at hp; simp at hp
  | rowsErr _ hr => rw [hnf] at hr; simp at hr
  | present _ _ _ => rfl
  | createErr _ _ _ hc => rw [hnf] at hc; simp at hc
  | created _ _ _ _ => rfl

theorem queryScan_ne_errOther {env : Env} {w : World} {n : String}
    (hf : env.fault w (.query n) = false) (hs : w.ledger.isSome = true)
    (hfit : ∀ e ∈ w.rows, fitsInt32 e.id = true) : (queryScan env w n).1 ≠ .errOther := by
  by_cases hn : n ∈ w.names
  · obtain ⟨e, _, hq⟩ := queryScan_of_mem hf hs hfit hn
    rw [hq]
    simp
  · rw [queryScan_of_not_mem hf hs hn]
    simp

theorem downFile_ok_of_noFault (env : Env) (f : String) (w : World)
    (hnf : ∀ s c, env.fault s c = false) (hs : w.ledger.isSome = true)
    (hfit : ∀ e ∈ w.rows, fitsInt32 e.id = true) (hread : env.readFile f ≠ none) :
    (downFile env f w).1 = none := by
  have hstep := downFile_step env f w
  generalize downFile env f w = r at hstep
  cases hstep with
  | other _ => rfl
  | queryErr _ hq => exact absurd hq (queryScan_ne_errOther (hnf _ _) hs hfit)
  | notApplied _ _ => rfl
  | notPositive _ _ _ _ => rfl
  | readErr _ _ _ _ hr => exact absurd hr hread
  | execErr _ _ _ _ _ _ hx => rw [hnf] at hx; simp at hx
  | removeErr id content _ _ _ _ _ hd =>
    have hok : (execDelete env (((w.logCall (.query (trimSuffix f downSuffix))).print
        ("Resetting migration: " ++ f)).logCall (.exec content)) id).1 = true :=
      execDelete_of_ok (hnf _ _) hs
    rw [hok] at hd
    simp at hd
  | removed _ _ _ _ _ _ _ _ => rfl

theorem downLoop_ok_of_noFault (env : Env) (files : List String) (w : World)
    (hnf : ∀ s c, env.fault s c = false) (hs : w.ledger.isSome = true)
    (hfit : ∀ e ∈ w.rows, fitsInt32 e.id = true)
    (hread : ∀ f ∈ files, hasSuffix f downSuffix = true → env.readFile f ≠ none) :
    (downLoop env files w).1 = none := by
  induction files generalizing w with
  | nil => rfl
  | cons f fs ih =>
    have ho : (downFile env f w).1 = none := by
      by_cases hsuf : hasSuffix f downSuffix = true
      · exact downFile_ok_of_noFault env f w hnf hs hfit
          (hread f (List.mem_cons_self _ _) hsuf)
      · simp [downFile, hsuf]
    rw [downLoop_cons_none ho]
    exact ih _ (downFile_isSome env f w hs)
      (fun e he => hfit e ((downFile_rows_sublist env f w).subset he))
      (fun g hg => hread g (List.mem_cons_of_mem _ hg))

theorem down_ok_of_noFault (env : Env) (w : World) (files : List String)
    (hopen : env.openOk = true) (hdir : env.readDir = some files)
    (hnf : ∀ s c, env.fault s c = false) (hfit : ∀ e ∈ w.rows, fitsInt32 e.id = true)
    (hread : ∀ f ∈ files, hasSuffix f downSuffix = true → env.readFile f ≠ none) :
    (down env w).1 = none := by
  have hc1 := checkMigrationTable_ok_of_noFault env w hnf
  obtain ⟨hrows, _, _, _, hsome⟩ := checkMigrationTable_frame env w
  rcases hc : checkMigrationTable env w with ⟨o, w1⟩
  rw [hc] at hc1 hrows hsome
  simp only at hc1 hrows hsome
  subst hc1
  have hl := downLoop_ok_of_noFault env (sortDesc files) w1 hnf (hsome rfl)
    (fun e he => hfit e (hrows ▸ he))
    (fun f hf => hread f ((sortDesc_perm files).mem_iff.1 hf))
  simp only [down, hopen, if_true, hc, hdir]
  rcases hl2 : downLoop env (sortDesc files) w1 with ⟨o2, w2⟩
  rw [hl2] at hl
  simp only at hl
  subst hl
  rfl

/-! ## A unit without a reverse script -/

theorem down_invariant_mem {env : Env} {files : List String} (P : World → Prop)
    (hdir : env.readDir = some files)
    (hcheck : ∀ w, P w → P (checkMigrationTable env w).2)
    (hstep : ∀ f ∈ files, ∀ w, P w → P (downFile env f w).2)
    (hprint : ∀ w, P w → P (w.print "Finished rolling back migrations ✅")) (w : World) (hw : P w) : P (down env w).2 := by
  unfold down
  split
  · have h1 := hcheck w hw
    rcases hc : checkMigrationTable env w with ⟨o, w1⟩
    rw [hc] at h1
    cases o with
    | some e => exact h1
    | none =>
      simp only [hdir]
      have h2 := downLoop_invariant P (sortDesc files)
        (fun f hf w hw => hstep f ((sortDesc_perm files).mem_iff.1 hf) w hw) w1 h1
      rcases hl : downLoop env (sortDesc files) w1 with ⟨o2, w2⟩
      rw [hl] at h2
      cases o2 with
      | some e => exact h2
      | none => exact hprint _ h2
  · exact hw

theorem downFile_out (env : Env) (f : String) (w : World) :
    (downFile env f w).2.out = w.out ∨
      (hasSuffix f downSuffix = true ∧
        (downFile env f w).2.out = w.out ++ ["Resetting migration: " ++ f]) := by
  have h := downFile_step env f w
  generalize downFile env f w = r at h
  cases h with
  | other _ => exact Or.inl rfl
  | queryErr _ _ => exact Or.inl rfl
  | notApplied _ _ => exact Or.inl rfl
  | notPositive _ _ _ _ => exact Or.inl rfl
  | readErr _ hs _ _ _ => exact Or.inr ⟨hs, rfl⟩
  | execErr _ _ hs _ _ _ _ => exact Or.inr ⟨hs, rfl⟩
  | removeErr _ _ hs _ _ _ _ _ => exact Or.inr ⟨hs, rfl⟩
  | removed _ _ hs _ _ _ _ _ => exact Or.inr ⟨hs, rfl⟩


theorem down_log (env : Env) (w : World) (files : List String)
    (hdir : env.readDir = some files) :
    ∃ d, (down env w).2.log = w.log ++ d ∧
      ∀ c ∈ d, c.isTableCall = true ∨ ∃ f ∈ files, downCallOf env w.rows f c := by
  obtain ⟨hrows, _, _, ⟨d0, hd0, hc0⟩, _⟩ := checkMigrationTable_frame env w
  unfold down
  split
  · rcases hc : checkMigrationTable env w with ⟨o, w1⟩
    rw [hc] at hd0 hrows
    simp only at hd0 hrows
    cases o with
    | some e => exact ⟨d0, hd0, fun c hc => Or.inl (hc0 c hc)⟩
    | none =>
      simp only [hdir]
      obtain ⟨d1, hd1, hc1⟩ := downLoop_log env (sortDesc files) w1
      rw [hrows] at hc1
      have hlog : (downLoop env (sortDesc files) w1).2.log = w.log ++ (d0 ++ d1) := by
        rw [hd1, hd0, List.append_assoc]
      have hcalls : ∀ c ∈ d0 ++ d1,
          c.isTableCall = true ∨ ∃ f ∈ files, downCallOf env w.rows f c := by
        intro c hc
        rcases List.mem_append.1 hc with hc | hc
        · exact Or.inl (hc0 c hc)
        · obtain ⟨f, hf, hcall⟩ := hc1 c hc
          exact Or.inr ⟨f, (sortDesc_perm files).mem_iff.1 hf, hcall⟩
      rcases hl : downLoop env (sortDesc files) w1 with ⟨o2, w2⟩
      rw [hl] at hlog
      cases o2 with
      | some e => exact ⟨d0 ++ d1, hlog, hcalls⟩
      | none => exact ⟨d0 ++ d1, hlog, hcalls⟩
  · exact ⟨[], by simp, by simp⟩

/-- C5 (as amended): a unit without a reverse script is silently skipped by `down`. Let
the ledger, whose rows have distinct ids, hold a row for an identifier for which the
directory listing has no `_down.sql` file (whether or not it has the `_up.sql` file). Then
after a run of `down`, however it ends, that row is still in the ledger; the run made no
ledger query for the identifier and no delete of the row; every line it printed is either
"Resetting migration: f" for a listed reverse script `f` or the final "Finished rolling
back migrations" line, so nothing reports the unit as irreversible; and when the
connection opens, the store rejects no call, the listed reverse scripts are readable and
the stored ids fit `int32`, the run finishes successfully. -/
theorem down_skips_missing_reverse (env : Env) (w : World) (files : List String)
    (e : Entry) (hdir : env.readDir = some files)
    (hmissing : (e.name ++ downSuffix) ∉ files) (he : e ∈ w.rows)
    (hids : (w.rows.map Entry.id).Nodup) :
    e ∈ (down env w).2.rows ∧
    (∃ d, (down env w).2.log = w.log ++ d ∧ Call.query e.name ∉ d ∧ Call.delete e.id ∉ d) ∧
    (∃ o, (down env w).2.out = w.out ++ o ∧
      ∀ l ∈ o, l = "Finished rolling back migrations ✅" ∨
        ∃ f ∈ files, hasSuffix f downSuffix = true ∧ l = "Resetting migration: " ++ f) ∧
    (env.openOk = true → (∀ s c, env.fault s c = false) →
      (∀ f ∈ files, hasSuffix f downSuffix = true → env.readFile f ≠ none) →
      (∀ x ∈ w.rows, fitsInt32 x.id = true) → (down env w).1 = none) := by
  have hname : ∀ f ∈ files, hasSuffix f downSuffix = true →
      e.name ≠ trimSuffix f downSuffix := by
    intro f hf hs hEq
    apply hmissing
    rw [hEq, trimSuffix_append_self hs]
    exact hf
  refine ⟨?_, ?_, ?_, ?_⟩
  · refine (down_invariant_mem (fun w1 => e ∈ w1.rows ∧ (w1.rows.map Entry.id).Nodup) hdir
      ?_ ?_ ?_ w ⟨he, hids⟩).1
    · intro w1 hw1
      show e ∈ (checkMigrationTable env w1).2.rows ∧
        ((checkMigrationTable env w1).2.rows.map Entry.id).Nodup
      rw [(checkMigrationTable_frame env w1).1]
      exact hw1
    · intro f hf w1 hw1
      obtain ⟨he1, hids1⟩ := hw1
      refine ⟨?_, ids_nodup_of_sublist (downFile_rows_sublist env f w1) hids1⟩
      rcases (downFile_ledger env f w1).2 with hl | ⟨e', hs, hfind, _, _, _, hl⟩
      · rw [rows_of_ledger_eq hl]
        exact he1
      · rw [rows_of_ledger hl, List.mem_filter]
        refine ⟨he1, ?_⟩
        have he'mem := List.mem_of_find?_eq_some hfind
        have he'name : e'.name = trimSuffix f downSuffix := by
          simpa using List.find?_some hfind
        have hne : e.id ≠ e'.id := fun hEq =>
          hname f hf hs ((congrArg Entry.name (eq_of_id_eq hids1 he1 he'mem hEq)).trans he'name)
        simpa using hne
    · intro w1 hw1
      exact hw1
  · obtain ⟨d, hd, hc⟩ := down_log env w files hdir
    refine ⟨d, hd, ?_, ?_⟩
    · intro hmem
      rcases hc _ hmem with h | ⟨f, hf, hs, h | ⟨_, h, _⟩ | ⟨_, _, h⟩⟩
      · simp [Call.isTableCall] at h
      · simp only [Call.query.injEq] at h
        exact hname f hf hs h
      · simp at h
      · simp at h
    · intro hmem
      rcases hc _ hmem with h | ⟨f, hf, hs, h | ⟨id, h, hrow⟩ | ⟨_, _, h⟩⟩
      · simp [Call.isTableCall] at h
      · simp at h
      · simp only [Call.delete.injEq] at h
        subst h
        exact hname f hf hs (congrArg Entry.name (eq_of_id_eq hids he hrow rfl))
      · simp at h
  · refine down_invariant_mem (fun w1 => ∃ o, w1.out = w.out ++ o ∧
      ∀ l ∈ o, l = "Finished rolling back migrations ✅" ∨
        ∃ f ∈ files, hasSuffix f downSuffix = true ∧ l = "Resetting migration: " ++ f) hdir
      ?_ ?_ ?_ w ⟨[], by simp, by simp⟩
    · intro w1 hw1
      show ∃ o, (checkMigrationTable env w1).2.out = w.out ++ o ∧ _
      rw [(checkMigrationTable_frame env w1).2.2.1]
      exact hw1
    · intro f hf w1 ⟨o, ho, hl⟩
      rcases downFile_out env f w1 with h | ⟨hs, h⟩
      · exact ⟨o, by rw [h, ho], hl⟩
      · refine ⟨o ++ ["Resetting migration: " ++ f], by rw [h, ho, List.append_assoc], ?_⟩
        intro l hmem
        rcases List.mem_append.1 hmem with hm | hm
        · exact hl l hm
        · exact Or.inr ⟨f, hf, hs, by simpa using hm⟩
    · intro w1 ⟨o, ho, hl⟩
      refine ⟨o ++ ["Finished rolling back migrations ✅"], ?_, ?_⟩
      · show w1.out ++ ["Finished rolling back migrations ✅"] = _
        rw [ho, List.append_assoc]
      · intro l hmem
        rcases List.mem_append.1 hmem with hm | hm
        · exact hl l hm
        · exact Or.inl (by simpa using hm)
  · intro hopen hnf hread hfit
    exact down_ok_of_noFault env w files hopen hdir hnf hfit hread

/-- C5, witness: the ledger holds `a` and `b`, the directory has a reverse script for `b`
only: `down` succeeds and the entry of `a` stays. -/
theorem down_skips_missing_reverse_witness :
    (⟨1, "a"⟩ : Entry) ∈ (down (okEnv ["a_up.sql", "b_up.sql", "b_down.sql"]) sampleWorld).2.rows ∧
      (down (okEnv ["a_up.sql", "b_up.sql", "b_down.sql"]) sampleWorld).1 = none :=
  ⟨(down_skips_missing_reverse (okEnv ["a_up.sql", "b_up.sql", "b_down.sql"]) sampleWorld
      ["a_up.sql", "b_up.sql", "b_down.sql"] ⟨1, "a"⟩ rfl (by decide) (by decide)
      (by decide)).1,
    by decide⟩

/-- C5, counterexample: with `x_up.sql` but no `x_down.sql` in the directory and an entry
for `x` in the ledger, `down` finishes successfully, leaves the entry in place, never
queries `x` and prints only its final line: the unit is skipped without any report. -/
theorem down_skips_missing_reverse_counterexample :
    down (okEnv ["x_up.sql"])
        { ledger := some [⟨1, "x"⟩], lastId := 1, log := [], out := [] } =
      (none,
        { ledger := some [⟨1, "x"⟩], lastId := 1, log := [.probe, .rowsAffected],
          out := ["Finished rolling back migrations ✅"] }) := by
  decide

/-! ## Round trip -/

theorem up_invariant_mem {env : Env} {files : List String} (P : World → Prop)
    (hdir : env.readDir = some files)
    (hcheck : ∀ w, P w → P (checkMigrationTable env w).2)
    (hstep : ∀ f ∈ files, ∀ w, P w → P (upFile env f w).2)
    (hprint : ∀ w, P w → P (w.print "Finished applying migrations ✅")) (w : World)
    (hw : P w) : P (up env w).2 := by
  unfold up
  split
  · have h1 := hcheck w hw
    rcases hc : checkMigrationTable env w with ⟨o, w1⟩
    rw [hc] at h1
    cases o with
    | some e => exact h1
    | none =>
      simp only [hdir]
      have h2 := upLoop_invariant P (sortAsc files)
        (fun f hf w hw => hstep f ((sortAsc_perm files).mem_iff.1 hf) w hw) w1 h1
      rcases hl : upLoop env (sortAsc files) w1 with ⟨o2, w2⟩
      rw [hl] at h2
      cases o2 with
      | some e => exact h2
      | none => exact hprint _ h2
  · exact hw

theorem upFile_upBuilt (env : Env) (files : List String) (f : String) (hf : f ∈ files)
    (w : World) (h : UpBuilt files w) : UpBuilt files (upFile env f w).2 := by
  obtain ⟨hn, hi, hr⟩ := h
  rcases upFile_ledger env f w with ⟨hl, hlast⟩ | ⟨hs, hnot, _, _, hl, hlast⟩
  · refine ⟨by rw [names_of_ledger hl]; exact hn, by rw [rows_of_ledger_eq hl]; exact hi, ?_⟩
    rw [rows_of_ledger_eq hl, hlast]
    exact hr
  · refine ⟨upFile_names_nodup env f w hn, ?_, ?_⟩
    · rw [rows_of_ledger hl, List.map_append]
      refine List.Nodup.append hi (List.nodup_singleton _) ?_
      simp only [List.map_cons, List.map_nil, List.disjoint_singleton]
      intro hmem
      obtain ⟨e, he, heid⟩ := List.mem_map.1 hmem
      have := (hr e he).2.1
      omega
    · rw [rows_of_ledger hl, hlast]
      intro e he
      rcases List.mem_append.1 he with he | he
      · obtain ⟨h1, h2, h3⟩ := hr e he
        exact ⟨h1, by push_cast; omega, h3⟩
      · simp only [List.mem_singleton] at he
        subst he
        exact ⟨by simp only; omega, by push_cast; simp, mem_upUnits.2 ⟨f, hf, hs, rfl⟩⟩

theorem up_upBuilt (env : Env) (files : List String) (hdir : env.readDir = some files)
    (w : World) (hempty : w.rows = []) : UpBuilt files (up env w).2 := by
  refine up_invariant_mem (UpBuilt files) hdir ?_ (upFile_upBuilt env files) ?_ w ?_
  · intro w1 hw1
    obtain ⟨hrows, hlast, _⟩ := checkMigrationTable_frame env w1
    unfold UpBuilt at hw1 ⊢
    rw [World.names, hrows, hlast]
    exact hw1
  · intro w1 hw1
    exact hw1
  · unfold UpBuilt
    rw [World.names, hempty]
    simp

theorem upFile_ok_of_noFault (env : Env) (f : String) (w : World)
    (hnf : ∀ s c, env.fault s c = false) (hs : w.ledger.isSome = true)
    (hfit : ∀ e ∈ w.rows, fitsInt32 e.id = true)
    (hread : hasSuffix f upSuffix = true → env.readFile f ≠ none) :
    (upFile env f w).1 = none := by
  have hstep := upFile_step env f w
  generalize upFile env f w = r at hstep
  cases hstep with
  | other _ => rfl
  | queryErr _ hq => exact absurd hq (queryScan_ne_errOther (hnf _ _) hs hfit)
  | skipped _ _ _ => rfl
  | readErr hsuf _ hr => exact absurd hr (hread hsuf)
  | execErr _ _ _ _ hx => rw [hnf] at hx; simp at hx
  | recordErr content _ hq _ _ hi =>
    have hok : (execRecord env (((w.logCall (.query (trimSuffix f upSuffix))).print
        ("Applying migration: " ++ f)).logCall (.exec content))
          (trimSuffix f upSuffix)).1 = true :=
      execRecord_of_not_mem (hnf _ _) hs (queryScan_errNoRows hq).2.2
    rw [hok] at hi
    simp at hi
  | recorded _ _ _ _ _ _ => rfl

theorem upFile_fits (env : Env) (f : String) (w : World)
    (hfit : ∀ e ∈ w.rows, fitsInt32 e.id = true) (hlast : w.lastId + 1 ≤ 2147483647) :
    (∀ e ∈ (upFile env f w).2.rows, fitsInt32 e.id = true) ∧
      (upFile env f w).2.lastId ≤ w.lastId + 1 := by
  rcases upFile_ledger env f w with ⟨hl, hlast'⟩ | ⟨_, _, _, _, hl, hlast'⟩
  · rw [rows_of_ledger_eq hl, hlast']
    exact ⟨hfit, Nat.le_succ _⟩
  · rw [rows_of_ledger hl, hlast']
    refine ⟨?_, le_refl _⟩
    intro e he
    rcases List.mem_append.1 he with he | he
    · exact hfit e he
    · simp only [List.mem_singleton] at he
      subst he
      simp only [fitsInt32, Bool.and_eq_true, decide_eq_true_eq]
      omega

theorem upLoop_ok_of_noFault (env : Env) (files : List String) (w : World)
    (hnf : ∀ s c, env.fault s c = false) (hs : w.ledger.isSome = true)
    (hfit : ∀ e ∈ w.rows, fitsInt32 e.id = true)
    (hlast : w.lastId + files.length ≤ 2147483647)
    (hread : ∀ f ∈ files, hasSuffix f upSuffix = true → env.readFile f ≠ none) :
    (upLoop env files w).1 = none ∧
      ∀ e ∈ (upLoop env files w).2.rows, fitsInt32 e.id = true := by
  induction files generalizing w with
  | nil => exact ⟨rfl, hfit⟩
  | cons f fs ih =>
    simp only [List.length_cons] at hlast
    have ho := upFile_ok_of_noFault env f w hnf hs hfit (hread f (List.mem_cons_self _ _))
    obtain ⟨hfit', hlast'⟩ := upFile_fits env f w hfit (by omega)
    rw [upLoop_cons_none ho]
    exact ih _ (upFile_isSome env f w hs) hfit' (by omega)
      (fun g hg => hread g (List.mem_cons_of_mem _ hg))

theorem up_ok_of_noFault (env : Env) (w : World) (files : List String)
    (hopen : env.openOk = true) (hdir : env.readDir = some files)
    (hnf : ∀ s c, env.fault s c = false) (hfit : ∀ e ∈ w.rows, fitsInt32 e.id = true)
    (hlast : w.lastId + files.length ≤ 2147483647)
    (hread : ∀ f ∈ files, hasSuffix f upSuffix = true → env.readFile f ≠ none) :
    (up env w).1 = none ∧ ∀ e ∈ (up env w).2.rows, fitsInt32 e.id = true := by
  have hc1 := checkMigrationTable_ok_of_noFault env w hnf
  obtain ⟨hrows, hlast1, _, _, hsome⟩ := checkMigrationTable_frame env w
  rcases hc : checkMigrationTable env w with ⟨o, w1⟩
  rw [hc] at hc1 hrows hsome hlast1
  simp only at hc1 hrows hsome hlast1
  subst hc1
  have hl := upLoop_ok_of_noFault env (sortAsc files) w1 hnf (hsome rfl)
    (fun e he => hfit e (hrows ▸ he))
    (by rw [hlast1, (sortAsc_perm files).length_eq]; exact hlast)
    (fun f hf => hread f ((sortAsc_perm files).mem_iff.1 hf))
  simp only [up, hopen, if_true, hc, hdir]
  rcases hl2 : upLoop env (sortAsc files) w1 with ⟨o2, w2⟩
  rw [hl2] at hl
  obtain ⟨hl1, hl3⟩ := hl
  simp only at hl1 hl3
  subst hl1
  exact ⟨rfl, hl3⟩


theorem ledger_of_isSome {w : World} (h : w.ledger.isSome = true) :
    w.ledger = some w.rows := by
  obtain ⟨rows, hrows⟩ := Option.isSome_iff_exists.1 h
  rw [rows_of_ledger hrows, hrows]

/-- C4 (as amended): round trip of `up` then `down`. Let every `_up.sql` file of the
directory listing have its `_down.sql` file in the listing, and let the ledger be empty
(or its table absent). If `up` runs to completion and `down`, on the same listing, then
runs to completion, the migrations table exists and is empty after `down`. Both runs do
complete when the connections open, the stores reject no call, the listed scripts are
readable and the ids the store will hand out fit `int32`. -/
theorem up_down_round_trip (envUp envDown : Env) (w : World) (files : List String)
    (hdirU : envUp.readDir = some files) (hdirD : envDown.readDir = some files)
    (hpair : ∀ f ∈ files, hasSuffix f upSuffix = true →
      (trimSuffix f upSuffix ++ downSuffix) ∈ files)
    (hempty : w.rows = []) :
    (∀ w1 w2, up envUp w = (none, w1) → down envDown w1 = (none, w2) →
      w2.ledger = some []) ∧
    (envUp.openOk = true → envDown.openOk = true →
      (∀ s c, envUp.fault s c = false) → (∀ s c, envDown.fault s c = false) →
      (∀ f ∈ files, hasSuffix f upSuffix = true → envUp.readFile f ≠ none) →
      (∀ f ∈ files, hasSuffix f downSuffix = true → envDown.readFile f ≠ none) →
      w.lastId + files.length ≤ 2147483647 →
      (up envUp w).1 = none ∧ (down envDown (up envUp w).2).1 = none) := by
  constructor
  · intro w1 w2 hup hdown
    have hb : UpBuilt files w1 := by
      have := up_upBuilt envUp files hdirU w hempty
      rw [hup] at this
      exact this
    obtain ⟨hn, hi, hr⟩ := hb
    obtain ⟨_, wc, files', w3, hcheck, hdir', hloop, hw2⟩ := down_ok_inv hdown
    rw [hdirD] at hdir'
    simp only [Option.some.injEq] at hdir'
    subst hdir'
    obtain ⟨hrows, _, _, _, hsome⟩ := checkMigrationTable_frame envDown w1
    rw [hcheck] at hrows hsome
    simp only at hrows hsome
    have hsome3 : w3.ledger.isSome = true := by
      have := downLoop_invariant (fun w => w.ledger.isSome = true) (sortDesc files)
        (fun f _ w hw => downFile_isSome envDown f w hw) wc (hsome trivial)
      rw [hloop] at this
      exact this
    have hrows3 : w3.rows = [] := by
      rw [downLoop_ok_rows hloop (by rw [World.names, hrows]; exact hn)
        (by rw [hrows]; exact hi), hrows, List.filter_eq_nil_iff]
      intro x hx
      obtain ⟨hpos, _, hunit⟩ := hr x hx
      obtain ⟨f, hf, hs, hname⟩ := mem_upUnits.1 hunit
      have hd : x.name ∈ downUnits (sortDesc files) := by
        rw [mem_downUnits_sortDesc]
        refine mem_downUnits.2 ⟨x.name ++ downSuffix, ?_, hasSuffix_append _ _,
          trimSuffix_append _ _⟩
        rw [← hname]
        exact hpair f hf hs
      simp [hpos, hd]
    rw [hw2]
    show w3.ledger = some []
    rw [ledger_of_isSome hsome3, hrows3]
  · intro hopenU hopenD hnfU hnfD hreadU hreadD hlast
    obtain ⟨h1, h2⟩ := up_ok_of_noFault envUp w files hopenU hdirU hnfU
      (by rw [hempty]; simp) hlast hreadU
    exact ⟨h1, down_ok_of_noFault envDown (up envUp w).2 files hopenD hdirD hnfD h2 hreadD⟩

/-- C4, witness: the concrete scenario of two units with both scripts on a fresh store:
`up` records the two identifiers in order, `down` leaves the ledger empty. -/
theorem up_down_round_trip_witness :
    (down (okEnv scenarioFiles) (up (okEnv scenarioFiles) freshWorld).2).2.ledger = some [] ∧
      (up (okEnv scenarioFiles) freshWorld).2.rows =
        [⟨1, "20240101000000_init"⟩, ⟨2, "20240102000000_add_col"⟩] :=
  ⟨(up_down_round_trip (okEnv scenarioFiles) (okEnv scenarioFiles) freshWorld scenarioFiles
      rfl rfl (by decide) rfl).1 (up (okEnv scenarioFiles) freshWorld).2
      (down (okEnv scenarioFiles) (up (okEnv scenarioFiles) freshWorld).2).2
      (by decide) (by decide),
    by decide⟩

/-- C4, counterexample: for the listing with `a_up.sql` only and a store without ledger,
`up` and then `down` both run to completion with every call accepted, and the ledger
still holds the entry for `a` after `down`. -/
theorem up_down_round_trip_counterexample :
    (up (okEnv ["a_up.sql"]) freshWorld).1 = none ∧
      (down (okEnv ["a_up.sql"]) (up (okEnv ["a_up.sql"]) freshWorld).2).1 = none ∧
      (down (okEnv ["a_up.sql"]) (up (okEnv ["a_up.sql"]) freshWorld).2).2.ledger =
        some [⟨1, "a"⟩] := by
  decide


end LibsqlMigrate
